import Mathlib

/-!
Shallow embedding of the Texas Hold'em hand evaluator
(`src/hand_eval.py` together with the card model of `src/card.py`).

A card carries a rank in [2,14] and a suit in {1,2,3,4}.  The evaluator
works on the 7-card list `hole ++ board`, deriving per-suit 13-bit rank
masks and per-rank counts, then running the category detectors from royal
flush down to high card.

Python exceptions are modelled with `Except String`: the arity check
raises `ValueError("Invalid board or card input.")`, and a negative shift
`1 << -1` raises `ValueError("negative shift count")`.  The latter matters
because the descending straight scan at `high_card = 5` evaluates
`has_rank(1)`, i.e. `1 << (1-2)`, whenever ranks 5,4,3,2 are all present.
-/

structure Card where
  rank : Nat
  suit : Nat
deriving DecidableEq, Repr

/-- The ten hand categories of `HoldemHandType` (an `IntEnum` in the source),
ordered weakest to strongest. -/
inductive HoldemHandType where
  | HIGH_CARD
  | PAIR
  | TWO_PAIR
  | THREE_OF_A_KIND
  | STRAIGHT
  | FLUSH
  | FULL_HOUSE
  | FOUR_OF_A_KIND
  | STRAIGHT_FLUSH
  | ROYAL_FLUSH
deriving DecidableEq, Repr

/-- The dynamically-typed tie-break value returned alongside the category:
a bare integer, a tuple of integers, or (for four of a kind with no other
rank present) a pair whose second component is Python's `None`. -/
inductive Tiebreak where
  | suit : Option Nat → Tiebreak
  | rank : Nat → Tiebreak
  | quad : Nat → Option Nat → Tiebreak
  | fullHouse : Nat → Nat → Tiebreak
  | flushScore : Nat → Tiebreak
  | trip : Nat → Nat → Nat → Tiebreak
  | twoPair : Nat → Nat → Nat → Tiebreak
  | onePair : Nat → Nat → Nat → Nat → Tiebreak
  | highCard : Nat × Nat × Nat × Nat × Nat → Tiebreak
deriving DecidableEq, Repr

/-- `suits_bitmask[i] |= 1 << (card.rank - 2)` for every card with
`card.suit - 1 == i`: the 13-bit rank-occupancy mask of suit slot `i`. -/
def suitMask (cards : List Card) (i : Nat) : Nat :=
  cards.foldl (fun m c => if c.suit - 1 = i then m ||| (1 <<< (c.rank - 2)) else m) 0

/-- `rank_mask |= 1 << (c.rank - 2)` over all cards: the union-of-suits
rank mask used by plain straight detection. -/
def unionRankMask (cards : List Card) : Nat :=
  cards.foldl (fun m c => m ||| (1 <<< (c.rank - 2))) 0

/-- One step of `rank_count[c.rank - 2] += 1`. -/
def bumpRank (rc : Nat → Nat) (c : Card) : Nat → Nat :=
  fun i => if i = c.rank - 2 then rc i + 1 else rc i

/-- `rank_count` as a function on slots `0..12` (slot `i` holds rank `i+2`). -/
def rankCount (cards : List Card) : Nat → Nat :=
  cards.foldl bumpRank (fun _ => 0)

/-- Bits 8..12, i.e. ranks 10..14 (T,J,Q,K,A). -/
def ROYAL_MASK : Nat :=
  (1 <<< (10 - 2)) ||| (1 <<< (11 - 2)) ||| (1 <<< (12 - 2)) |||
    (1 <<< (13 - 2)) ||| (1 <<< (14 - 2))

/-- The suit scan of `is_royal_flush`: first suit slot whose mask covers
`ROYAL_MASK` wins; `(False, None)` if none does. -/
def royalLoop (masks : Nat → Nat) : List Nat → Bool × Option Nat
  | [] => (false, none)
  | i :: is_ =>
      if masks i &&& ROYAL_MASK = ROYAL_MASK then (true, some (i + 1))
      else royalLoop masks is_

def is_royal_flush (cards board : List Card) : Bool × Option Nat :=
  royalLoop (suitMask (cards ++ board)) [0, 1, 2, 3]

/-- `has_rank(r)` tests `rank_mask & (1 << (r - 2))`; for `r < 2` the shift
count is negative and Python raises `ValueError`. -/
def hasRank (rankMask r : Nat) : Except String Bool :=
  if r < 2 then Except.error "negative shift count"
  else Except.ok (rankMask &&& (1 <<< (r - 2)) ≠ 0)

/-- `all(has_rank(...) for ...)` with Python's short-circuit evaluation:
later tests (and their exceptions) are not evaluated once one fails. -/
def allHasRank (rankMask : Nat) : List Nat → Except String Bool
  | [] => Except.ok true
  | r :: rs => do
      let b ← hasRank rankMask r
      if b then allHasRank rankMask rs else Except.ok false

/-- The descending scan of `_get_best_straight_in_mask`: for each
`high_card` in the list try ranks `high_card - 0 .. high_card - 4`; after
the list is exhausted run the wheel check on ranks `[14, 2, 3, 4, 5]`. -/
def straightLoop (rankMask : Nat) : List Nat → Except String (Option Nat)
  | [] => do
      let b ← allHasRank rankMask [14, 2, 3, 4, 5]
      if b then Except.ok (some 5) else Except.ok none
  | h :: hs => do
      let b ← allHasRank rankMask [h, h - 1, h - 2, h - 3, h - 4]
      if b then Except.ok (some h) else straightLoop rankMask hs

/-- `_get_best_straight_in_mask`: `range(14, 4, -1)` is 14 down to 5. -/
def getBestStraightInMask (rankMask : Nat) : Except String (Option Nat) :=
  straightLoop rankMask [14, 13, 12, 11, 10, 9, 8, 7, 6, 5]

/-- The suit loop of `get_straight_flush_suit_and_rank`, carrying
`best_suit` and `best_top_rank`. -/
def sfLoop (masks : Nat → Nat) :
    List Nat → Option Nat → Nat → Except String (Option Nat × Nat)
  | [], bestSuit, bestTop => Except.ok (bestSuit, bestTop)
  | i :: is_, bestSuit, bestTop => do
      let topRank ← getBestStraightInMask (masks i)
      match topRank with
      | some t =>
          if bestTop < t then sfLoop masks is_ (some (i + 1)) t
          else sfLoop masks is_ bestSuit bestTop
      | none => sfLoop masks is_ bestSuit bestTop

def get_straight_flush_suit_and_rank (hole_cards board_cards : List Card) :
    Except String (Option (Nat × Nat)) := do
  let masks := suitMask (hole_cards ++ board_cards)
  let (bestSuit, bestTop) ← sfLoop masks [0, 1, 2, 3] none 0
  match bestSuit with
  | some s => Except.ok (some (s, bestTop))
  | none => Except.ok none

def four_of_a_kind_and_kicker (hole_cards board_cards : List Card) :
    Option (Nat × Option Nat) :=
  let rc := rankCount (hole_cards ++ board_cards)
  match (List.range 13).find? (fun i => decide (4 ≤ rc i)) with
  | none => none
  | some qi =>
      let quad := qi + 2
      let kicker :=
        ((List.range 13).reverse).find?
          (fun i => decide (i + 2 ≠ quad) && decide (0 < rc i))
      some (quad, kicker.map (fun i => i + 2))

/-- The nested candidate loop of `get_best_full_house`: for each triple
candidate (descending) pick the first pair candidate with a different
slot; move on to the next triple candidate if none differs. -/
def fhSearch : List Nat → List Nat → Option (Nat × Nat)
  | [], _ => none
  | t :: ts, ps =>
      match ps.find? (fun p => decide (p ≠ t)) with
      | some p => some (t + 2, p + 2)
      | none => fhSearch ts ps

/-- `get_best_full_house`: the source collects candidates by an ascending
scan and then applies `sort(reverse=True)`; filtering the reversed range
produces exactly that descending candidate list. -/
def get_best_full_house (hole_cards board_cards : List Card) :
    Option (Nat × Nat) :=
  let rc := rankCount (hole_cards ++ board_cards)
  let tripleCandidates := ((List.range 13).reverse).filter (fun i => decide (3 ≤ rc i))
  let pairCandidates := ((List.range 13).reverse).filter (fun i => decide (2 ≤ rc i))
  fhSearch tripleCandidates pairCandidates

/-- Descending sort, as `sorted(..., reverse=True)` / `heapq.nlargest`. -/
def sortDesc (l : List Nat) : List Nat :=
  List.insertionSort (· ≥ ·) l

/-- The per-suit rank bucket: ranks of the cards of suit slot `i`, in
input order. -/
def suitBucket (cards : List Card) (i : Nat) : List Nat :=
  (cards.filter (fun c => decide (c.suit - 1 = i))).map (fun c => c.rank)

/-- `score = (score << 4) | r` folded over the given ranks. -/
def packScore (ranks : List Nat) : Nat :=
  ranks.foldl (fun score r => (score <<< 4) ||| r) 0

/-- The `best_score` accumulation loop of `get_flush_score_fast` over the
four suit buckets: `heapq.nlargest(5, ranks)` followed by
`sorted(top5, reverse=True)` is the 5 largest ranks in descending order. -/
def flushBest (cards : List Card) : Nat :=
  (List.range 4).foldl
    (fun best i =>
      let ranks := suitBucket cards i
      if 5 ≤ ranks.length then
        let score := packScore ((sortDesc ranks).take 5)
        if best < score then score else best
      else best) 0

def get_flush_score_fast (hole_cards board_cards : List Card) : Option Nat :=
  let best := flushBest (hole_cards ++ board_cards)
  if 0 < best then some best else none

/-- `get_best_straight_rank` inlines the same descending scan and wheel
check as `_get_best_straight_in_mask`, applied to the union mask. -/
def get_best_straight_rank (hole_cards board_cards : List Card) :
    Except String (Option Nat) :=
  getBestStraightInMask (unionRankMask (hole_cards ++ board_cards))

/-- The leftover pool: for each slot `i` from 12 down to 0, `rc i` copies
of rank `i + 2` (`leftover.extend([i+2]*rank_count[i])`). -/
def leftoverPool (rc : Nat → Nat) : List Nat :=
  ((List.range 13).reverse).foldr
    (fun i acc => List.replicate (rc i) (i + 2) ++ acc) []

def get_three_of_a_kind_tiebreak (hole_cards board_cards : List Card) :
    Option (Nat × Nat × Nat) :=
  let rc := rankCount (hole_cards ++ board_cards)
  match ((List.range 13).reverse).find? (fun i => decide (3 ≤ rc i)) with
  | none => none
  | some ti =>
      let trip := ti + 2
      let rc2 := fun i => if i = trip - 2 then rc i - 3 else rc i
      let leftover := sortDesc (leftoverPool rc2)
      some (trip, leftover.getD 0 0, leftover.getD 1 0)

def get_two_pair_tiebreak (hole_cards board_cards : List Card) :
    Option (Nat × Nat × Nat) :=
  let rc := rankCount (hole_cards ++ board_cards)
  let pairs :=
    (((List.range 13).reverse).filter (fun i => decide (2 ≤ rc i))).map (fun i => i + 2)
  match pairs with
  | topPair :: secondPair :: _ =>
      let rc2 := fun i =>
        if i = topPair - 2 then rc i - 2
        else if i = secondPair - 2 then rc i - 2
        else rc i
      let kicker :=
        match ((List.range 13).reverse).find? (fun i => decide (0 < rc2 i)) with
        | some i => i + 2
        | none => 0
      some (topPair, secondPair, kicker)
  | _ => none

def get_one_pair_tiebreak (hole_cards board_cards : List Card) :
    Option (Nat × Nat × Nat × Nat) :=
  let rc := rankCount (hole_cards ++ board_cards)
  match ((List.range 13).reverse).find? (fun i => decide (2 ≤ rc i)) with
  | none => none
  | some pi_ =>
      let pairRank := pi_ + 2
      let rc2 := fun i => if i = pairRank - 2 then rc i - 2 else rc i
      let leftover := leftoverPool rc2
      some (pairRank, leftover.getD 0 0, leftover.getD 1 0, leftover.getD 2 0)

/-- Top 5 ranks descending, padded with 0 below 5 entries, as a tuple. -/
def get_high_card_tiebreak (hole_cards board_cards : List Card) :
    Nat × Nat × Nat × Nat × Nat :=
  let ranks := sortDesc ((hole_cards ++ board_cards).map (fun c => c.rank))
  let top5 := ranks.take 5
  (top5.getD 0 0, top5.getD 1 0, top5.getD 2 0, top5.getD 3 0, top5.getD 4 0)

/-- `holdem_eval`: arity check, then the ten detectors from best to worst,
returning on first match.  Exceptions from the straight scans propagate. -/
def holdem_eval (card board : List Card) :
    Except String (HoldemHandType × Tiebreak) :=
  if board.length ≠ 5 ∨ card.length ≠ 2 then
    Except.error "Invalid board or card input."
  else
    match is_royal_flush card board with
    | (true, s) => Except.ok (.ROYAL_FLUSH, .suit s)
    | (false, _) =>
      match get_straight_flush_suit_and_rank card board with
      | Except.error e => Except.error e
      | Except.ok (some (_, rankSf)) => Except.ok (.STRAIGHT_FLUSH, .rank rankSf)
      | Except.ok none =>
        match four_of_a_kind_and_kicker card board with
        | some (quadRank, kickerRank) =>
            Except.ok (.FOUR_OF_A_KIND, .quad quadRank kickerRank)
        | none =>
          match get_best_full_house card board with
          | some (tripleRank, pairRank) =>
              Except.ok (.FULL_HOUSE, .fullHouse tripleRank pairRank)
          | none =>
            match get_flush_score_fast card board with
            | some flushScore => Except.ok (.FLUSH, .flushScore flushScore)
            | none =>
              match get_best_straight_rank card board with
              | Except.error e => Except.error e
              | Except.ok (some straightRank) =>
                  Except.ok (.STRAIGHT, .rank straightRank)
              | Except.ok none =>
                match get_three_of_a_kind_tiebreak card board with
                | some (t, k1, k2) => Except.ok (.THREE_OF_A_KIND, .trip t k1 k2)
                | none =>
                  match get_two_pair_tiebreak card board with
                  | some (a, b, k) => Except.ok (.TWO_PAIR, .twoPair a b k)
                  | none =>
                    match get_one_pair_tiebreak card board with
                    | some (p, k1, k2, k3) =>
                        Except.ok (.PAIR, .onePair p k1 k2 k3)
                    | none =>
                        Except.ok (.HIGH_CARD, .highCard (get_high_card_tiebreak card board))

-- Sanity checks: the repository's own test vectors.
example :
    holdem_eval [⟨10, 1⟩, ⟨14, 1⟩] [⟨11, 1⟩, ⟨12, 1⟩, ⟨13, 1⟩, ⟨2, 2⟩, ⟨4, 3⟩] =
      Except.ok (.ROYAL_FLUSH, .suit (some 1)) := rfl

example :
    holdem_eval [⟨8, 1⟩, ⟨9, 1⟩] [⟨10, 1⟩, ⟨11, 1⟩, ⟨12, 1⟩, ⟨2, 2⟩, ⟨4, 3⟩] =
      Except.ok (.STRAIGHT_FLUSH, .rank 12) := rfl

example :
    holdem_eval [⟨14, 1⟩, ⟨14, 2⟩] [⟨14, 3⟩, ⟨14, 4⟩, ⟨9, 1⟩, ⟨2, 2⟩, ⟨3, 3⟩] =
      Except.ok (.FOUR_OF_A_KIND, .quad 14 (some 9)) := rfl

example :
    holdem_eval [⟨14, 1⟩, ⟨14, 3⟩] [⟨14, 2⟩, ⟨13, 4⟩, ⟨13, 3⟩, ⟨7, 1⟩, ⟨6, 1⟩] =
      Except.ok (.FULL_HOUSE, .fullHouse 14 13) := rfl

example :
    holdem_eval [⟨5, 2⟩, ⟨6, 3⟩] [⟨7, 1⟩, ⟨8, 4⟩, ⟨9, 3⟩, ⟨14, 1⟩, ⟨2, 2⟩] =
      Except.ok (.STRAIGHT, .rank 9) := rfl

example :
    holdem_eval [⟨9, 2⟩, ⟨9, 3⟩] [⟨9, 1⟩, ⟨13, 2⟩, ⟨7, 3⟩, ⟨5, 1⟩, ⟨2, 1⟩] =
      Except.ok (.THREE_OF_A_KIND, .trip 9 13 7) := rfl

example :
    holdem_eval [⟨7, 1⟩, ⟨7, 3⟩] [⟨5, 2⟩, ⟨5, 1⟩, ⟨2, 3⟩, ⟨13, 2⟩, ⟨9, 1⟩] =
      Except.ok (.TWO_PAIR, .twoPair 7 5 13) := rfl

example :
    holdem_eval [⟨12, 2⟩, ⟨9, 1⟩] [⟨12, 3⟩, ⟨14, 2⟩, ⟨7, 4⟩, ⟨2, 1⟩, ⟨5, 2⟩] =
      Except.ok (.PAIR, .onePair 12 14 9 7) := rfl

example :
    holdem_eval [⟨3, 1⟩, ⟨5, 2⟩] [⟨7, 2⟩, ⟨11, 2⟩, ⟨9, 1⟩, ⟨13, 3⟩, ⟨2, 2⟩] =
      Except.ok (.HIGH_CARD, .highCard (13, 11, 9, 7, 5)) := rfl

/-! ## Characterizations of the derived statistics -/

lemma foldl_bumpRank_apply (cards : List Card) (f : Nat → Nat) (i : Nat) :
    (cards.foldl bumpRank f) i = f i + cards.countP (fun c => decide (c.rank - 2 = i)) := by
  induction cards generalizing f with
  | nil => simp
  | cons c l ih =>
    simp only [List.foldl_cons, List.countP_cons, ih (bumpRank f c), bumpRank]
    by_cases h : i = c.rank - 2
    · simp [h]
      omega
    · have h' : ¬(c.rank - 2 = i) := fun hh => h hh.symm
      simp [h, h']

lemma rankCount_apply (cards : List Card) (i : Nat) :
    rankCount cards i = cards.countP (fun c => decide (c.rank - 2 = i)) := by
  simpa using foldl_bumpRank_apply cards (fun _ => 0) i

lemma rankCount_perm {l₁ l₂ : List Card} (h : l₁.Perm l₂) :
    rankCount l₁ = rankCount l₂ := by
  funext i
  rw [rankCount_apply, rankCount_apply, h.countP_eq]

lemma foldl_or_testBit (cards : List Card) (g : Card → Bool) (m b : Nat) :
    ((cards.foldl (fun m c => if g c then m ||| (1 <<< (c.rank - 2)) else m) m).testBit b)
      = (m.testBit b || cards.any (fun c => g c && decide (c.rank - 2 = b))) := by
  induction cards generalizing m with
  | nil => simp
  | cons c l ih =>
    simp only [List.foldl_cons, List.any_cons, ih]
    by_cases hg : g c = true
    · simp only [hg, if_pos, Bool.true_and]
      rw [Nat.testBit_or, Nat.one_shiftLeft]
      by_cases hb : c.rank - 2 = b
      · simp [hb, Nat.testBit_two_pow_self]
      · rw [Nat.testBit_two_pow_of_ne hb]
        simp [hb]
    · simp [hg]

lemma suitMask_testBit (cards : List Card) (i b : Nat) :
    (suitMask cards i).testBit b
      = cards.any (fun c => decide (c.suit - 1 = i) && decide (c.rank - 2 = b)) := by
  have := foldl_or_testBit cards (fun c => decide (c.suit - 1 = i)) 0 b
  simpa [suitMask] using this

lemma unionRankMask_testBit (cards : List Card) (b : Nat) :
    (unionRankMask cards).testBit b
      = cards.any (fun c => decide (c.rank - 2 = b)) := by
  have := foldl_or_testBit cards (fun _ => true) 0 b
  simpa [unionRankMask] using this

lemma any_perm {l₁ l₂ : List Card} (h : l₁.Perm l₂) (p : Card → Bool) :
    l₁.any p = l₂.any p := by
  cases h1 : l₁.any p with
  | true =>
    rcases List.any_eq_true.mp h1 with ⟨c, hc, hpc⟩
    exact (List.any_eq_true.mpr ⟨c, h.mem_iff.mp hc, hpc⟩).symm
  | false =>
    cases h2 : l₂.any p with
    | true =>
      rcases List.any_eq_true.mp h2 with ⟨c, hc, hpc⟩
      have := List.any_eq_true.mpr ⟨c, h.mem_iff.mpr hc, hpc⟩
      rw [h1] at this
      exact this
    | false => rfl

lemma suitMask_perm {l₁ l₂ : List Card} (h : l₁.Perm l₂) :
    suitMask l₁ = suitMask l₂ := by
  funext i
  apply Nat.eq_of_testBit_eq
  intro b
  rw [suitMask_testBit, suitMask_testBit, any_perm h]

lemma unionRankMask_perm {l₁ l₂ : List Card} (h : l₁.Perm l₂) :
    unionRankMask l₁ = unionRankMask l₂ := by
  apply Nat.eq_of_testBit_eq
  intro b
  rw [unionRankMask_testBit, unionRankMask_testBit, any_perm h]

/-! ## Scans over the reversed rank range -/

lemma range_reverse_succ (n : Nat) :
    (List.range (n + 1)).reverse = n :: (List.range n).reverse := by
  rw [List.range_succ, List.reverse_append]
  simp

lemma find?_range_reverse_some {n i : Nat} {p : Nat → Bool}
    (h : ((List.range n).reverse).find? p = some i) :
    p i = true ∧ i < n ∧ ∀ j, j < n → p j = true → j ≤ i := by
  induction n with
  | zero => simp at h
  | succ n ih =>
    rw [range_reverse_succ] at h
    by_cases hp : p n = true
    · rw [List.find?_cons_of_pos _ hp] at h
      obtain rfl : n = i := by injection h
      exact ⟨hp, Nat.lt_succ_self n, fun j hj _ => Nat.lt_succ_iff.mp hj⟩
    · rw [List.find?_cons_of_neg _ (by simpa using hp)] at h
      obtain ⟨h1, h2, h3⟩ := ih h
      refine ⟨h1, Nat.lt_succ_of_lt h2, fun j hj hpj => ?_⟩
      rcases Nat.lt_succ_iff_lt_or_eq.mp hj with hj' | rfl
      · exact h3 j hj' hpj
      · exact absurd hpj hp

lemma find?_range_reverse_none {n : Nat} {p : Nat → Bool}
    (h : ((List.range n).reverse).find? p = none) :
    ∀ j, j < n → p j = false := by
  intro j hj
  have := List.find?_eq_none.mp h j (by simpa [List.mem_reverse, List.mem_range] using hj)
  simpa using this

lemma filter_range_reverse_nil {n : Nat} {p : Nat → Bool}
    (h : ((List.range n).reverse).filter p = []) :
    ∀ j, j < n → p j = false := by
  intro j hj
  have hmem : j ∈ (List.range n).reverse := by simpa [List.mem_reverse, List.mem_range] using hj
  by_cases hp : p j = true
  · have : j ∈ ((List.range n).reverse).filter p := List.mem_filter.mpr ⟨hmem, hp⟩
    rw [h] at this
    simp at this
  · simpa using hp

lemma filter_range_reverse_cons {n i : Nat} {rest : List Nat} {p : Nat → Bool}
    (h : ((List.range n).reverse).filter p = i :: rest) :
    p i = true ∧ i < n ∧ (∀ j, j < n → p j = true → j ≤ i) ∧
      rest = ((List.range i).reverse).filter p := by
  induction n with
  | zero => simp at h
  | succ n ih =>
    rw [range_reverse_succ, List.filter_cons] at h
    by_cases hp : p n = true
    · rw [if_pos hp] at h
      injection h with h1 h2
      subst h1
      exact ⟨hp, Nat.lt_succ_self n, fun j hj _ => Nat.lt_succ_iff.mp hj, h2.symm⟩
    · rw [if_neg hp] at h
      obtain ⟨h1, h2, h3, h4⟩ := ih h
      refine ⟨h1, Nat.lt_succ_of_lt h2, fun j hj hpj => ?_, h4⟩
      rcases Nat.lt_succ_iff_lt_or_eq.mp hj with hj' | rfl
      · exact h3 j hj' hpj
      · exact absurd hpj hp

/-! ## C1, C2, C10: the negative-shift crash -/

/-- C2: the claim says `_get_best_straight_in_mask` returns `None` on mask
15 (ranks 2,3,4,5 with no ace) and `5` on mask 4111 (the wheel ranks
14,2,3,4,5).  The code instead raises `ValueError("negative shift count")`
on both: the descending scan at `high_card = 5` evaluates
`has_rank(1) = rank_mask & (1 << -1)` once ranks 5,4,3,2 are present, so
the wheel branch is unreachable. -/
theorem getBestStraightInMask_crash :
    getBestStraightInMask 15 = Except.error "negative shift count" ∧
      getBestStraightInMask 4111 = Except.error "negative shift count" :=
  ⟨rfl, rfl⟩

/-- C1: arity violations do raise the arity `ValueError`, but the claim
that every 2+5 input with valid ranks and suits raises nothing is false:
the distinct-card input 2s 3h | 4d 5c 9s Js Ks reaches the plain-straight
scan with ranks 2,3,4,5 present and no straight, and `1 << -1` raises
`ValueError("negative shift count")`. -/
theorem holdem_eval_crash_on_valid_input :
    holdem_eval [⟨2, 1⟩, ⟨3, 2⟩] [⟨4, 3⟩, ⟨5, 4⟩, ⟨9, 1⟩, ⟨11, 1⟩, ⟨13, 1⟩] =
      Except.error "negative shift count" ∧
    holdem_eval [⟨2, 1⟩] [⟨4, 3⟩, ⟨5, 4⟩, ⟨9, 1⟩, ⟨11, 1⟩, ⟨13, 1⟩] =
      Except.error "Invalid board or card input." :=
  ⟨rfl, rfl⟩

/-- C10: the all-one-rank clause is accurate — seven aces yield
`(FOUR_OF_A_KIND, (14, None))` — but the claim that no duplicate-card
2+5 input with valid ranks and suits ever raises is false: the input
2s 3s | 4s 5h 5h 9d Kc (duplicate 5h) crashes in the plain-straight scan
with `ValueError("negative shift count")`. -/
theorem holdem_eval_duplicates :
    holdem_eval [⟨2, 1⟩, ⟨3, 1⟩] [⟨4, 1⟩, ⟨5, 2⟩, ⟨5, 2⟩, ⟨9, 3⟩, ⟨13, 4⟩] =
      Except.error "negative shift count" ∧
    holdem_eval [⟨14, 1⟩, ⟨14, 2⟩] [⟨14, 3⟩, ⟨14, 4⟩, ⟨14, 1⟩, ⟨14, 2⟩, ⟨14, 3⟩] =
      Except.ok (.FOUR_OF_A_KIND, .quad 14 none) :=
  ⟨rfl, rfl⟩

/-! ## C3: the packed flush score is an order embedding of lexicographic
rank comparison -/

/-- Lexicographic strict comparison of two rank sequences (used only to
state the spec's ordering property; for equal-length sequences). -/
def lexLtB : List Nat → List Nat → Bool
  | _, [] => false
  | [], _ :: _ => true
  | a :: as, b :: bs => decide (a < b) || (decide (a = b) && lexLtB as bs)

/-- A rank sequence is descending (weakly, as in "take the 5 highest"). -/
def isDescB : List Nat → Bool
  | [] => true
  | [_] => true
  | x :: y :: rest => decide (y ≤ x) && isDescB (y :: rest)

/-- `packScore` with an explicit accumulator, to reason about the fold. -/
def packFrom (s : Nat) (l : List Nat) : Nat :=
  l.foldl (fun score r => (score <<< 4) ||| r) s

lemma packScore_eq_packFrom (l : List Nat) : packScore l = packFrom 0 l := rfl

lemma shiftLeft4_or_eq_add (s r : Nat) (h : r < 16) :
    (s <<< 4) ||| r = 16 * s + r := by
  have h16 : (16 : Nat) * s + r = 2 ^ 4 * s + r := by norm_num
  rw [h16]
  apply Nat.eq_of_testBit_eq
  intro j
  rw [Nat.testBit_or, Nat.testBit_shiftLeft,
    Nat.testBit_mul_pow_two_add s (show r < 2 ^ 4 by omega) j]
  by_cases hj : j < 4
  · have : ¬(4 ≤ j) := by omega
    simp [hj, this]
  · have h4j : 4 ≤ j := by omega
    have : r < 2 ^ j := lt_of_lt_of_le (show r < 2 ^ 4 by omega)
      (Nat.pow_le_pow_right (by norm_num) h4j)
    simp [hj, h4j, Nat.testBit_lt_two_pow this]

lemma packFrom_decomp (l : List Nat) :
    ∀ s : Nat, (∀ r ∈ l, r < 16) →
      packFrom s l = s * 16 ^ l.length + packFrom 0 l ∧
        packFrom 0 l < 16 ^ l.length := by
  induction l with
  | nil => intro s _; simp [packFrom]
  | cons r rs ih =>
    intro s hlt
    have hr : r < 16 := hlt r (List.mem_cons_self r rs)
    have hrs : ∀ x ∈ rs, x < 16 := fun x hx => hlt x (List.mem_cons_of_mem r hx)
    have step : ∀ t : Nat, packFrom t (r :: rs) = packFrom (16 * t + r) rs := by
      intro t
      simp only [packFrom, List.foldl_cons, shiftLeft4_or_eq_add t r hr]
    obtain ⟨ih1, ih2⟩ := ih (16 * s + r) hrs
    obtain ⟨ih1', _⟩ := ih r hrs
    have hzero : packFrom 0 (r :: rs) = r * 16 ^ rs.length + packFrom 0 rs := by
      rw [step 0]
      simpa using ih1'
    constructor
    · rw [step s, ih1, hzero]
      simp [List.length_cons, pow_succ]
      ring
    · rw [hzero]
      have : r * 16 ^ rs.length + packFrom 0 rs < (r + 1) * 16 ^ rs.length := by
        obtain ⟨_, hb⟩ := ih r hrs
        nlinarith [hb]
      calc r * 16 ^ rs.length + packFrom 0 rs
          < (r + 1) * 16 ^ rs.length := this
        _ ≤ 16 * 16 ^ rs.length := Nat.mul_le_mul_right _ (by omega)
        _ = 16 ^ (r :: rs).length := by rw [List.length_cons, pow_succ]; ring

lemma digit_block_lt {x y pxs pys M : Nat} (hpx : pxs < M) (hxy : x < y) :
    x * M + pxs < y * M + pys := by
  have h1 : (x + 1) * M ≤ y * M := Nat.mul_le_mul_right M hxy
  calc x * M + pxs < x * M + M := by omega
    _ = (x + 1) * M := by ring
    _ ≤ y * M := h1
    _ ≤ y * M + pys := Nat.le_add_right _ _

lemma packScore_lt_iff (a : List Nat) :
    ∀ b : List Nat, a.length = b.length → (∀ r ∈ a, r < 16) → (∀ r ∈ b, r < 16) →
      (packScore a < packScore b ↔ lexLtB a b = true) := by
  induction a with
  | nil =>
    intro b hlen _ _
    have : b = [] := List.eq_nil_of_length_eq_zero hlen.symm
    subst this
    simp [packScore, packFrom, lexLtB]
  | cons x xs ih =>
    intro b hlen hxa hxb
    cases b with
    | nil => simp at hlen
    | cons y ys =>
      have hx : x < 16 := hxa x (List.mem_cons_self x xs)
      have hy : y < 16 := hxb y (List.mem_cons_self y ys)
      have hxs : ∀ r ∈ xs, r < 16 := fun r hr => hxa r (List.mem_cons_of_mem x hr)
      have hys : ∀ r ∈ ys, r < 16 := fun r hr => hxb r (List.mem_cons_of_mem y hr)
      have hlen' : xs.length = ys.length := by simpa using hlen
      have hxdec : packScore (x :: xs) = x * 16 ^ xs.length + packScore xs := by
        rw [packScore_eq_packFrom]
        have step : packFrom 0 (x :: xs) = packFrom x xs := by
          simp only [packFrom, List.foldl_cons]
          rw [shiftLeft4_or_eq_add 0 x hx]
          norm_num
        rw [step, (packFrom_decomp xs x hxs).1, packScore_eq_packFrom]
      have hydec : packScore (y :: ys) = y * 16 ^ ys.length + packScore ys := by
        rw [packScore_eq_packFrom]
        have step : packFrom 0 (y :: ys) = packFrom y ys := by
          simp only [packFrom, List.foldl_cons]
          rw [shiftLeft4_or_eq_add 0 y hy]
          norm_num
        rw [step, (packFrom_decomp ys y hys).1, packScore_eq_packFrom]
      have hbx : packScore xs < 16 ^ xs.length := by
        rw [packScore_eq_packFrom]; exact (packFrom_decomp xs 0 hxs).2
      have hby : packScore ys < 16 ^ ys.length := by
        rw [packScore_eq_packFrom]; exact (packFrom_decomp ys 0 hys).2
      rw [hxdec, hydec, ← hlen']
      rcases Nat.lt_trichotomy x y with hc | hc | hc
      · have hlt : x * 16 ^ xs.length + packScore xs <
            y * 16 ^ xs.length + packScore ys := digit_block_lt hbx hc
        simp [lexLtB, hc, hlt]
      · subst hc
        have : (x * 16 ^ xs.length + packScore xs <
            x * 16 ^ xs.length + packScore ys) ↔ packScore xs < packScore ys := by omega
        rw [this, ih ys hlen' hxs hys]
        simp [lexLtB, Nat.lt_irrefl]
      · have hlt : y * 16 ^ xs.length + packScore ys <
            x * 16 ^ xs.length + packScore xs := by
          rw [← hlen'] at hby
          exact digit_block_lt hby hc
        have hnlt : ¬(x * 16 ^ xs.length + packScore xs <
            y * 16 ^ xs.length + packScore ys) := by omega
        have hne : ¬(x < y) := by omega
        have hne' : ¬(x = y) := by omega
        simp [lexLtB, hne, hne', hnlt]

lemma lexLtB_total (a : List Nat) :
    ∀ b : List Nat, a.length = b.length → a ≠ b →
      lexLtB a b = true ∨ lexLtB b a = true := by
  induction a with
  | nil =>
    intro b hlen hne
    cases b with
    | nil => exact absurd rfl hne
    | cons y ys => simp at hlen
  | cons x xs ih =>
    intro b hlen hne
    cases b with
    | nil => simp at hlen
    | cons y ys =>
      rcases Nat.lt_trichotomy x y with hxy | hxy | hxy
      · left; simp [lexLtB, hxy]
      · subst hxy
        have hlen' : xs.length = ys.length := by simpa using hlen
        have hne' : xs ≠ ys := fun hh => hne (by rw [hh])
        rcases ih ys hlen' hne' with hcase | hcase
        · left; simp [lexLtB, hcase]
        · right; simp [lexLtB, hcase]
      · right; simp [lexLtB, hxy]

lemma packScore_eq_iff (a : List Nat) :
    ∀ b : List Nat, a.length = b.length → (∀ r ∈ a, r < 16) → (∀ r ∈ b, r < 16) →
      (packScore a = packScore b ↔ a = b) := by
  intro b hlen hxa hxb
  constructor
  · intro h
    by_contra hne
    have h1 := packScore_lt_iff a b hlen hxa hxb
    have h2 := packScore_lt_iff b a hlen.symm hxb hxa
    rcases lexLtB_total a b hlen hne with hcase | hcase
    · rw [← h1] at hcase; omega
    · rw [← h2] at hcase; omega
  · intro h; rw [h]

/-- C3: packing five ranks (each in [2,14]) into one integer, 4 bits per
rank and most-significant rank first — the packing of
`get_flush_score_fast` — is a strictly monotone order-embedding of
lexicographic comparison on descending 5-rank sequences: `<` on packed
integers matches lexicographic `<` (in both orientations) and `=` matches
sequence equality. -/
theorem packScore_lex_embedding (a b : List Nat)
    (ha : a.length = 5) (hb : b.length = 5)
    (_hda : isDescB a = true) (_hdb : isDescB b = true)
    (hra : ∀ r ∈ a, 2 ≤ r ∧ r ≤ 14) (hrb : ∀ r ∈ b, 2 ≤ r ∧ r ≤ 14) :
    (packScore a < packScore b ↔ lexLtB a b = true) ∧
    (packScore b < packScore a ↔ lexLtB b a = true) ∧
    (packScore a = packScore b ↔ a = b) := by
  have hlen : a.length = b.length := by omega
  have h16a : ∀ r ∈ a, r < 16 := fun r hr => by have := hra r hr; omega
  have h16b : ∀ r ∈ b, r < 16 := fun r hr => by have := hrb r hr; omega
  exact ⟨packScore_lt_iff a b hlen h16a h16b,
    packScore_lt_iff b a hlen.symm h16b h16a,
    packScore_eq_iff a b hlen h16a h16b⟩

theorem packScore_lex_embedding_witness :
    ([14, 13, 9, 5, 2] : List Nat).length = 5 ∧
    ([14, 13, 9, 5, 3] : List Nat).length = 5 ∧
    isDescB [14, 13, 9, 5, 2] = true ∧ isDescB [14, 13, 9, 5, 3] = true ∧
    (∀ r ∈ ([14, 13, 9, 5, 2] : List Nat), 2 ≤ r ∧ r ≤ 14) ∧
    (∀ r ∈ ([14, 13, 9, 5, 3] : List Nat), 2 ≤ r ∧ r ≤ 14) ∧
    ((packScore [14, 13, 9, 5, 2] < packScore [14, 13, 9, 5, 3] ↔
        lexLtB [14, 13, 9, 5, 2] [14, 13, 9, 5, 3] = true) ∧
      (packScore [14, 13, 9, 5, 3] < packScore [14, 13, 9, 5, 2] ↔
        lexLtB [14, 13, 9, 5, 3] [14, 13, 9, 5, 2] = true) ∧
      (packScore [14, 13, 9, 5, 2] = packScore [14, 13, 9, 5, 3] ↔
        [14, 13, 9, 5, 2] = [14, 13, 9, 5, 3])) :=
  ⟨rfl, rfl, rfl, rfl, by decide, by decide,
    packScore_lex_embedding [14, 13, 9, 5, 2] [14, 13, 9, 5, 3]
      rfl rfl rfl rfl (by decide) (by decide)⟩

/-! ## C4: full-house selection picks the highest triple, then the highest
differing pair -/

lemma fhSearch_spec (rc : Nat → Nat) :
    (∀ t p,
        fhSearch (((List.range 13).reverse).filter (fun i => decide (3 ≤ rc i)))
            (((List.range 13).reverse).filter (fun i => decide (2 ≤ rc i))) =
          some (t, p) →
        ∃ ti pj, t = ti + 2 ∧ p = pj + 2 ∧ ti < 13 ∧ pj < 13 ∧ pj ≠ ti ∧
          3 ≤ rc ti ∧ 2 ≤ rc pj ∧
          (∀ j, j < 13 → 3 ≤ rc j → j ≤ ti) ∧
          (∀ j, j < 13 → j ≠ ti → 2 ≤ rc j → j ≤ pj)) ∧
    (fhSearch (((List.range 13).reverse).filter (fun i => decide (3 ≤ rc i)))
          (((List.range 13).reverse).filter (fun i => decide (2 ≤ rc i))) =
        none ↔
      ¬ ∃ i j, i < 13 ∧ j < 13 ∧ i ≠ j ∧ 3 ≤ rc i ∧ 2 ≤ rc j) := by
  cases htc : ((List.range 13).reverse).filter (fun i => decide (3 ≤ rc i)) with
  | nil =>
    have hno3 : ∀ j, j < 13 → ¬(3 ≤ rc j) := by
      intro j hj
      have := filter_range_reverse_nil htc j hj
      simpa using this
    constructor
    · intro t p h
      simp [fhSearch] at h
    · refine iff_of_true rfl ?_
      rintro ⟨i, j, hi, _, _, h3, _⟩
      exact hno3 i hi h3
  | cons t₀ ts =>
    obtain ⟨ht₀p, ht₀lt, ht₀max, hts⟩ := filter_range_reverse_cons htc
    have ht₀3 : 3 ≤ rc t₀ := of_decide_eq_true ht₀p
    have ht₀max' : ∀ j, j < 13 → 3 ≤ rc j → j ≤ t₀ := fun j hj h3 =>
      ht₀max j hj (decide_eq_true h3)
    cases hpc : ((List.range 13).reverse).filter (fun i => decide (2 ≤ rc i)) with
    | nil =>
      exact absurd (filter_range_reverse_nil hpc t₀ ht₀lt)
        (by simp; omega)
    | cons q₀ qs =>
      obtain ⟨hq₀p, hq₀lt, hq₀max, hqs⟩ := filter_range_reverse_cons hpc
      have hq₀2 : 2 ≤ rc q₀ := of_decide_eq_true hq₀p
      have hq₀max' : ∀ j, j < 13 → 2 ≤ rc j → j ≤ q₀ := fun j hj h2 =>
        hq₀max j hj (decide_eq_true h2)
      by_cases hq : q₀ = t₀
      · subst hq
        -- the top pair candidate is the chosen triple; look below it
        cases hqs' : qs with
        | nil =>
          rw [hqs'] at hqs
          have hnopair : ∀ j, j < q₀ → ¬(2 ≤ rc j) := by
            intro j hj
            have := filter_range_reverse_nil hqs.symm j hj
            simpa using this
          have htsnil : ts = [] := by
            cases hts' : ts with
            | nil => rfl
            | cons t₁ ts' =>
              rw [hts'] at hts
              obtain ⟨ht₁p, ht₁lt, _, _⟩ := filter_range_reverse_cons hts.symm
              have ht₁3 : 3 ≤ rc t₁ := of_decide_eq_true ht₁p
              exact absurd (show 2 ≤ rc t₁ by omega) (hnopair t₁ ht₁lt)
          have hres : fhSearch (q₀ :: ts) [q₀] = none := by
            rw [htsnil]
            simp [fhSearch, List.find?]
          constructor
          · intro t p h
            rw [hres] at h
            simp at h
          · rw [hres]
            refine iff_of_true rfl ?_
            rintro ⟨i, j, hi, hj, hij, h3, h2⟩
            have hit : i = q₀ := by
              have hle : i ≤ q₀ := ht₀max' i hi h3
              rcases Nat.lt_or_ge i q₀ with hlt | hge
              · exact absurd (show 2 ≤ rc i by omega) (hnopair i hlt)
              · omega
            subst hit
            have : j ≤ i := hq₀max' j hj h2
            rcases Nat.lt_or_ge j i with hlt | hge
            · exact hnopair j hlt h2
            · omega
        | cons q₁ rest =>
          rw [hqs'] at hqs
          obtain ⟨hq₁p, hq₁lt, hq₁max, _⟩ := filter_range_reverse_cons hqs.symm
          have hq₁2 : 2 ≤ rc q₁ := of_decide_eq_true hq₁p
          have hq₁max' : ∀ j, j < q₀ → 2 ≤ rc j → j ≤ q₁ := fun j hj h2 =>
            hq₁max j hj (decide_eq_true h2)
          have hq₁ne : q₁ ≠ q₀ := by omega
          have hres : fhSearch (q₀ :: ts) (q₀ :: q₁ :: rest) =
              some (q₀ + 2, q₁ + 2) := by
            simp [fhSearch, List.find?, hq₁ne]
          constructor
          · intro t p h
            rw [hres] at h
            injection h with h'
            obtain ⟨h1, h2⟩ := Prod.ext_iff.mp h'
            dsimp at h1 h2
            subst h1
            subst h2
            refine ⟨q₀, q₁, rfl, rfl, ht₀lt, by omega, by omega, ht₀3, hq₁2,
              ht₀max', ?_⟩
            intro j hj hjne h2j
            have : j ≤ q₀ := hq₀max' j hj h2j
            have : j < q₀ := by omega
            exact hq₁max' j this h2j
          · rw [hres]
            refine iff_of_false (by simp) ?_
            intro hno
            exact hno ⟨q₀, q₁, ht₀lt, by omega, by omega, ht₀3, hq₁2⟩
      · -- the top pair candidate differs from the triple: chosen directly
        have hres : fhSearch (t₀ :: ts) (q₀ :: qs) = some (t₀ + 2, q₀ + 2) := by
          simp [fhSearch, List.find?, hq]
        constructor
        · intro t p h
          rw [hres] at h
          injection h with h'
          obtain ⟨h1, h2⟩ := Prod.ext_iff.mp h'
          dsimp at h1 h2
          subst h1
          subst h2
          exact ⟨t₀, q₀, rfl, rfl, ht₀lt, hq₀lt, hq, ht₀3, hq₀2, ht₀max',
            fun j hj _ h2j => hq₀max' j hj h2j⟩
        · rw [hres]
          refine iff_of_false (by simp) ?_
          intro hno
          exact hno ⟨t₀, q₀, ht₀lt, hq₀lt, fun hh => hq hh.symm, ht₀3, hq₀2⟩

/-- C4: on any 7-card input, when `get_best_full_house` returns
`(t, p)`, `t` is the highest rank with count ≥ 3 and `p` the highest rank
different from `t` with count ≥ 2 (a second triple also qualifying as a
pair candidate); it returns `None` exactly when no rank with count ≥ 3
coexists with a different rank of count ≥ 2. -/
theorem get_best_full_house_spec (hole_cards board_cards : List Card)
    (_hv : ∀ c ∈ hole_cards ++ board_cards, 2 ≤ c.rank ∧ c.rank ≤ 14)
    (_hlen : (hole_cards ++ board_cards).length = 7) :
    (∀ t p, get_best_full_house hole_cards board_cards = some (t, p) →
      2 ≤ t ∧ t ≤ 14 ∧ 3 ≤ rankCount (hole_cards ++ board_cards) (t - 2) ∧
      (∀ r, 2 ≤ r → r ≤ 14 →
        3 ≤ rankCount (hole_cards ++ board_cards) (r - 2) → r ≤ t) ∧
      2 ≤ p ∧ p ≤ 14 ∧ p ≠ t ∧
      2 ≤ rankCount (hole_cards ++ board_cards) (p - 2) ∧
      (∀ r, 2 ≤ r → r ≤ 14 → r ≠ t →
        2 ≤ rankCount (hole_cards ++ board_cards) (r - 2) → r ≤ p)) ∧
    (get_best_full_house hole_cards board_cards = none ↔
      ¬ ∃ r s, 2 ≤ r ∧ r ≤ 14 ∧ 2 ≤ s ∧ s ≤ 14 ∧ r ≠ s ∧
        3 ≤ rankCount (hole_cards ++ board_cards) (r - 2) ∧
        2 ≤ rankCount (hole_cards ++ board_cards) (s - 2)) := by
  have hcore := fhSearch_spec (rankCount (hole_cards ++ board_cards))
  have heq : get_best_full_house hole_cards board_cards =
      fhSearch
        (((List.range 13).reverse).filter
          (fun i => decide (3 ≤ rankCount (hole_cards ++ board_cards) i)))
        (((List.range 13).reverse).filter
          (fun i => decide (2 ≤ rankCount (hole_cards ++ board_cards) i))) := rfl
  rw [heq]
  obtain ⟨hsome, hnone⟩ := hcore
  constructor
  · intro t p h
    obtain ⟨ti, pj, rfl, rfl, hti, hpj, hne, h3, h2, hmax3, hmax2⟩ := hsome t p h
    refine ⟨by omega, by omega, by simpa using h3, ?_, by omega, by omega,
      by omega, by simpa using h2, ?_⟩
    · intro r hr2 hr14 h3r
      have := hmax3 (r - 2) (by omega) h3r
      omega
    · intro r hr2 hr14 hrne h2r
      have := hmax2 (r - 2) (by omega) (by omega) h2r
      omega
  · rw [hnone]
    constructor
    · intro hno
      rintro ⟨r, s, hr2, hr14, hs2, hs14, hrs, h3, h2⟩
      exact hno ⟨r - 2, s - 2, by omega, by omega, by omega, h3, h2⟩
    · intro hno
      rintro ⟨i, j, hi, hj, hij, h3, h2⟩
      refine hno ⟨i + 2, j + 2, by omega, by omega, by omega, by omega, by omega,
        by simpa using h3, by simpa using h2⟩

def fhHole : List Card := [⟨14, 1⟩, ⟨14, 3⟩]

def fhBoard : List Card := [⟨14, 2⟩, ⟨13, 4⟩, ⟨13, 3⟩, ⟨7, 1⟩, ⟨6, 1⟩]

theorem get_best_full_house_spec_witness :
    (∀ c ∈ fhHole ++ fhBoard, 2 ≤ c.rank ∧ c.rank ≤ 14) ∧
    (fhHole ++ fhBoard).length = 7 ∧
    get_best_full_house fhHole fhBoard = some (14, 13) ∧
    ((∀ t p, get_best_full_house fhHole fhBoard = some (t, p) →
      2 ≤ t ∧ t ≤ 14 ∧ 3 ≤ rankCount (fhHole ++ fhBoard) (t - 2) ∧
      (∀ r, 2 ≤ r → r ≤ 14 →
        3 ≤ rankCount (fhHole ++ fhBoard) (r - 2) → r ≤ t) ∧
      2 ≤ p ∧ p ≤ 14 ∧ p ≠ t ∧
      2 ≤ rankCount (fhHole ++ fhBoard) (p - 2) ∧
      (∀ r, 2 ≤ r → r ≤ 14 → r ≠ t →
        2 ≤ rankCount (fhHole ++ fhBoard) (r - 2) → r ≤ p)) ∧
    (get_best_full_house fhHole fhBoard = none ↔
      ¬ ∃ r s, 2 ≤ r ∧ r ≤ 14 ∧ 2 ≤ s ∧ s ≤ 14 ∧ r ≠ s ∧
        3 ≤ rankCount (fhHole ++ fhBoard) (r - 2) ∧
        2 ≤ rankCount (fhHole ++ fhBoard) (s - 2))) :=
  ⟨by decide, rfl, rfl, get_best_full_house_spec fhHole fhBoard (by decide) rfl⟩

/-! ## C5: four of a kind — uniqueness of the quad rank and the kicker -/

lemma sum_rankCount (cards : List Card)
    (hv : ∀ c ∈ cards, 2 ≤ c.rank ∧ c.rank ≤ 14) :
    ∑ i in Finset.range 13, rankCount cards i = cards.length := by
  induction cards with
  | nil => simp [rankCount_apply]
  | cons c l ih =>
    have hc := hv c (List.mem_cons_self c l)
    have hv' : ∀ x ∈ l, 2 ≤ x.rank ∧ x.rank ≤ 14 := fun x hx =>
      hv x (List.mem_cons_of_mem c hx)
    have hstep : ∀ i, rankCount (c :: l) i =
        rankCount l i + (if c.rank - 2 = i then 1 else 0) := by
      intro i
      simp [rankCount_apply, List.countP_cons]
    calc ∑ i in Finset.range 13, rankCount (c :: l) i
        = ∑ i in Finset.range 13,
            (rankCount l i + if c.rank - 2 = i then 1 else 0) :=
          Finset.sum_congr rfl (fun i _ => hstep i)
      _ = (∑ i in Finset.range 13, rankCount l i) +
            ∑ i in Finset.range 13, (if c.rank - 2 = i then 1 else 0) :=
          Finset.sum_add_distrib
      _ = l.length + 1 := by
          rw [ih hv', Finset.sum_ite_eq (Finset.range 13) (c.rank - 2)]
          simp only [Finset.mem_range]
          rw [if_pos (by omega)]
      _ = (c :: l).length := by simp

lemma rankCount_le_four (cards : List Card) (hnd : cards.Nodup)
    (hv : ∀ c ∈ cards, 2 ≤ c.rank ∧ 1 ≤ c.suit ∧ c.suit ≤ 4) (i : Nat) :
    rankCount cards i ≤ 4 := by
  rw [rankCount_apply, List.countP_eq_length_filter]
  have hlnd : (cards.filter (fun c => decide (c.rank - 2 = i))).Nodup :=
    hnd.filter _
  have hsnd : ((cards.filter (fun c => decide (c.rank - 2 = i))).map
      (fun c => c.suit)).Nodup := by
    refine List.Nodup.map_on ?_ hlnd
    intro x hx y hy hxy
    have hxm : x.rank - 2 = i := by simpa using List.of_mem_filter hx
    have hym : y.rank - 2 = i := by simpa using List.of_mem_filter hy
    have hx2 : 2 ≤ x.rank := (hv x (List.mem_of_mem_filter hx)).1
    have hy2 : 2 ≤ y.rank := (hv y (List.mem_of_mem_filter hy)).1
    have hr : x.rank = y.rank := by omega
    obtain ⟨xr, xs⟩ := x
    obtain ⟨yr, ys⟩ := y
    simp_all
  have hsub : (((cards.filter (fun c => decide (c.rank - 2 = i))).map
      (fun c => c.suit)).toFinset : Finset Nat) ⊆ ({1, 2, 3, 4} : Finset Nat) := by
    intro s hs
    simp only [List.mem_toFinset, List.mem_map] at hs
    obtain ⟨c, hcm, rfl⟩ := hs
    have := (hv c (List.mem_of_mem_filter hcm)).2
    simp only [Finset.mem_insert, Finset.mem_singleton]
    omega
  have hcard := Finset.card_le_card hsub
  rw [List.toFinset_card_of_nodup hsnd] at hcard
  simpa using hcard

lemma quad_slot_unique (cards : List Card)
    (hv : ∀ c ∈ cards, 2 ≤ c.rank ∧ c.rank ≤ 14)
    (hlen : cards.length = 7) :
    ∀ i j, i < 13 → j < 13 →
      4 ≤ rankCount cards i → 4 ≤ rankCount cards j → i = j := by
  intro i j hi hj h4i h4j
  by_contra hne
  have hsum := sum_rankCount cards hv
  have hpair : rankCount cards i + rankCount cards j ≤
      ∑ k in Finset.range 13, rankCount cards k := by
    rw [← Finset.sum_pair hne]
    apply Finset.sum_le_sum_of_subset
    intro x hx
    simp only [Finset.mem_insert, Finset.mem_singleton] at hx
    simp only [Finset.mem_range]
    rcases hx with rfl | rfl
    · exact hi
    · exact hj
  omega

/-- C5: with 7 pairwise-distinct valid cards, at most one rank can have
count ≥ 4; when a rank `q` does, `four_of_a_kind_and_kicker` returns
`(q, k)` with `k` the highest rank other than `q` present among the
cards, and — when neither a royal flush nor a straight flush was detected
first — `holdem_eval` returns `(FOUR_OF_A_KIND, (q, k))`. -/
theorem four_of_a_kind_spec (hole_cards board_cards : List Card)
    (hnd : (hole_cards ++ board_cards).Nodup)
    (hv : ∀ c ∈ hole_cards ++ board_cards,
      2 ≤ c.rank ∧ c.rank ≤ 14 ∧ 1 ≤ c.suit ∧ c.suit ≤ 4)
    (hc2 : hole_cards.length = 2) (hb5 : board_cards.length = 5) :
    (∀ q q', 2 ≤ q → q ≤ 14 → 2 ≤ q' → q' ≤ 14 →
      4 ≤ rankCount (hole_cards ++ board_cards) (q - 2) →
      4 ≤ rankCount (hole_cards ++ board_cards) (q' - 2) → q = q') ∧
    (∀ q, 2 ≤ q → q ≤ 14 →
      4 ≤ rankCount (hole_cards ++ board_cards) (q - 2) →
      ∃ k, four_of_a_kind_and_kicker hole_cards board_cards = some (q, some k) ∧
        2 ≤ k ∧ k ≤ 14 ∧ k ≠ q ∧
        0 < rankCount (hole_cards ++ board_cards) (k - 2) ∧
        (∀ r, 2 ≤ r → r ≤ 14 → r ≠ q →
          0 < rankCount (hole_cards ++ board_cards) (r - 2) → r ≤ k) ∧
        (is_royal_flush hole_cards board_cards = (false, none) →
          get_straight_flush_suit_and_rank hole_cards board_cards =
            Except.ok none →
          holdem_eval hole_cards board_cards =
            Except.ok (.FOUR_OF_A_KIND, .quad q (some k)))) := by
  have hvr : ∀ c ∈ hole_cards ++ board_cards, 2 ≤ c.rank ∧ c.rank ≤ 14 :=
    fun c hc => ⟨(hv c hc).1, (hv c hc).2.1⟩
  have hvs : ∀ c ∈ hole_cards ++ board_cards,
      2 ≤ c.rank ∧ 1 ≤ c.suit ∧ c.suit ≤ 4 :=
    fun c hc => ⟨(hv c hc).1, (hv c hc).2.2.1, (hv c hc).2.2.2⟩
  have hlen : (hole_cards ++ board_cards).length = 7 := by
    simp [hc2, hb5]
  have huniq := quad_slot_unique (hole_cards ++ board_cards) hvr hlen
  constructor
  · intro q q' hq2 hq14 hq2' hq14' h4 h4'
    have := huniq (q - 2) (q' - 2) (by omega) (by omega) h4 h4'
    omega
  · intro q hq2 hq14 h4
    cases hfind : (List.range 13).find?
        (fun i => decide (4 ≤ rankCount (hole_cards ++ board_cards) i)) with
    | none =>
      exfalso
      have := List.find?_eq_none.mp hfind (q - 2)
        (by simp only [List.mem_range]; omega)
      simp only [decide_eq_true_eq] at this
      exact this h4
    | some qi =>
      have hqi4 : 4 ≤ rankCount (hole_cards ++ board_cards) qi := by
        have h := List.find?_some hfind
        simpa using h
      have hqilt : qi < 13 := by
        have := List.mem_of_find?_eq_some hfind
        simpa [List.mem_range] using this
      have hqeq : qi = q - 2 := huniq qi (q - 2) hqilt (by omega) hqi4 h4
      have hkex : ∃ j, j < 13 ∧ j + 2 ≠ q ∧
          0 < rankCount (hole_cards ++ board_cards) j := by
        by_contra hno
        push_neg at hno
        have hz : ∀ j ∈ Finset.range 13, j ≠ q - 2 →
            rankCount (hole_cards ++ board_cards) j = 0 := by
          intro j hj hjne
          have hj13 : j < 13 := Finset.mem_range.mp hj
          have := hno j hj13
          omega
        have hsingle : ∑ i in Finset.range 13,
            rankCount (hole_cards ++ board_cards) i =
            rankCount (hole_cards ++ board_cards) (q - 2) :=
          Finset.sum_eq_single (q - 2) hz
            (fun hmem => absurd (Finset.mem_range.mpr (by omega)) hmem)
        have hle4 := rankCount_le_four (hole_cards ++ board_cards) hnd hvs (q - 2)
        have hsum := sum_rankCount (hole_cards ++ board_cards) hvr
        omega
      cases hk : ((List.range 13).reverse).find?
          (fun i => decide (i + 2 ≠ qi + 2) &&
            decide (0 < rankCount (hole_cards ++ board_cards) i)) with
      | none =>
        exfalso
        obtain ⟨j, hj13, hjne, hjpos⟩ := hkex
        have := find?_range_reverse_none hk j hj13
        rw [Bool.and_eq_false_iff] at this
        rcases this with hfalse | hfalse <;> simp only [decide_eq_false_iff_not] at hfalse
        · exact hfalse (by omega)
        · exact hfalse hjpos
      | some ki =>
        obtain ⟨hkp, hkilt, hkmax⟩ := find?_range_reverse_some hk
        rw [Bool.and_eq_true] at hkp
        have hkne : ki + 2 ≠ qi + 2 := by
          have := hkp.1; simpa using this
        have hkpos : 0 < rankCount (hole_cards ++ board_cards) ki := by
          have := hkp.2; simpa using this
        have hfoak : four_of_a_kind_and_kicker hole_cards board_cards =
            some (qi + 2, some (ki + 2)) := by
          simp only [four_of_a_kind_and_kicker, hfind, hk]
          rfl
        refine ⟨ki + 2, ?_, by omega, by omega, by omega, by simpa using hkpos,
          ?_, ?_⟩
        · rw [hfoak]
          have : qi + 2 = q := by omega
          rw [this]
        · intro r hr2 hr14 hrne hrpos
          have hj := hkmax (r - 2) (by omega)
            (by
              rw [Bool.and_eq_true]
              constructor
              · simp only [decide_eq_true_eq]
                omega
              · simp only [decide_eq_true_eq]
                exact hrpos)
          omega
        · intro hroyal hsf
          have hq' : qi + 2 = q := by omega
          rw [← hq']
          simp [holdem_eval, hb5, hc2, hroyal, hsf, hfoak]

def quadHole : List Card := [⟨14, 1⟩, ⟨14, 2⟩]

def quadBoard : List Card := [⟨14, 3⟩, ⟨14, 4⟩, ⟨9, 1⟩, ⟨2, 2⟩, ⟨3, 3⟩]

theorem four_of_a_kind_spec_witness :
    (quadHole ++ quadBoard).Nodup ∧
    (∀ c ∈ quadHole ++ quadBoard,
      2 ≤ c.rank ∧ c.rank ≤ 14 ∧ 1 ≤ c.suit ∧ c.suit ≤ 4) ∧
    quadHole.length = 2 ∧ quadBoard.length = 5 ∧
    ((∀ q q', 2 ≤ q → q ≤ 14 → 2 ≤ q' → q' ≤ 14 →
      4 ≤ rankCount (quadHole ++ quadBoard) (q - 2) →
      4 ≤ rankCount (quadHole ++ quadBoard) (q' - 2) → q = q') ∧
    (∀ q, 2 ≤ q → q ≤ 14 →
      4 ≤ rankCount (quadHole ++ quadBoard) (q - 2) →
      ∃ k, four_of_a_kind_and_kicker quadHole quadBoard = some (q, some k) ∧
        2 ≤ k ∧ k ≤ 14 ∧ k ≠ q ∧
        0 < rankCount (quadHole ++ quadBoard) (k - 2) ∧
        (∀ r, 2 ≤ r → r ≤ 14 → r ≠ q →
          0 < rankCount (quadHole ++ quadBoard) (r - 2) → r ≤ k) ∧
        (is_royal_flush quadHole quadBoard = (false, none) →
          get_straight_flush_suit_and_rank quadHole quadBoard =
            Except.ok none →
          holdem_eval quadHole quadBoard =
            Except.ok (.FOUR_OF_A_KIND, .quad q (some k))))) :=
  ⟨by decide, by decide, rfl, rfl,
    four_of_a_kind_spec quadHole quadBoard (by decide) (by decide) rfl rfl⟩

/-! ## C6: two pair — the two highest paired ranks and the kicker over the
remaining cards -/

lemma twoPair_kicker_exists (cards : List Card)
    (hv : ∀ c ∈ cards, 2 ≤ c.rank ∧ c.rank ≤ 14) (hlen : cards.length = 7)
    (a₀ b₀ : Nat) (ha : a₀ < 13) (hb : b₀ < 13) (hne : b₀ ≠ a₀) :
    ∃ j, j < 13 ∧ 0 < (if j = a₀ then rankCount cards j - 2
      else if j = b₀ then rankCount cards j - 2 else rankCount cards j) := by
  by_contra hno
  push_neg at hno
  have hbound : ∀ j ∈ Finset.range 13, rankCount cards j ≤
      (if j = a₀ then 2 else 0) + (if j = b₀ then 2 else 0) := by
    intro j hj
    have hj13 := Finset.mem_range.mp hj
    have hz := hno j hj13
    by_cases h1 : j = a₀
    · rw [if_pos h1] at hz
      have hab : ¬(j = b₀) := by omega
      rw [if_pos h1, if_neg hab]
      omega
    · rw [if_neg h1] at hz
      by_cases h2 : j = b₀
      · rw [if_pos h2] at hz
        rw [if_neg h1, if_pos h2]
        omega
      · rw [if_neg h2] at hz
        rw [if_neg h1, if_neg h2]
        omega
  have hsum := sum_rankCount cards hv
  have hle := Finset.sum_le_sum hbound
  rw [Finset.sum_add_distrib, Finset.sum_ite_eq' (Finset.range 13) a₀ (fun _ => 2),
    Finset.sum_ite_eq' (Finset.range 13) b₀ (fun _ => 2),
    if_pos (Finset.mem_range.mpr ha), if_pos (Finset.mem_range.mpr hb)] at hle
  omega

/-- C6: when at least two distinct ranks have count ≥ 2,
`get_two_pair_tiebreak` returns `(a, b, k)` with `a`, `b` the two highest
paired ranks (`a > b`) and `k` the highest rank still present after
removing two cards of rank `a` and two of rank `b` (a third paired rank
may serve as kicker); it returns `None` exactly when fewer than two
distinct ranks are paired. -/
theorem get_two_pair_tiebreak_spec (hole_cards board_cards : List Card)
    (hv : ∀ c ∈ hole_cards ++ board_cards, 2 ≤ c.rank ∧ c.rank ≤ 14)
    (hlen : (hole_cards ++ board_cards).length = 7) :
    (∀ a b k, get_two_pair_tiebreak hole_cards board_cards = some (a, b, k) →
      2 ≤ b ∧ b < a ∧ a ≤ 14 ∧
      2 ≤ rankCount (hole_cards ++ board_cards) (a - 2) ∧
      2 ≤ rankCount (hole_cards ++ board_cards) (b - 2) ∧
      (∀ r, 2 ≤ r → r ≤ 14 →
        2 ≤ rankCount (hole_cards ++ board_cards) (r - 2) → r ≤ a) ∧
      (∀ r, 2 ≤ r → r ≤ 14 → r ≠ a →
        2 ≤ rankCount (hole_cards ++ board_cards) (r - 2) → r ≤ b) ∧
      2 ≤ k ∧ k ≤ 14 ∧
      0 < rankCount (hole_cards ++ board_cards) (k - 2) -
        (if k = a then 2 else if k = b then 2 else 0) ∧
      (∀ r, 2 ≤ r → r ≤ 14 →
        0 < rankCount (hole_cards ++ board_cards) (r - 2) -
          (if r = a then 2 else if r = b then 2 else 0) → r ≤ k)) ∧
    (get_two_pair_tiebreak hole_cards board_cards = none ↔
      ¬ ∃ r s, 2 ≤ r ∧ r ≤ 14 ∧ 2 ≤ s ∧ s ≤ 14 ∧ r ≠ s ∧
        2 ≤ rankCount (hole_cards ++ board_cards) (r - 2) ∧
        2 ≤ rankCount (hole_cards ++ board_cards) (s - 2)) := by
  cases hfl : ((List.range 13).reverse).filter
      (fun i => decide (2 ≤ rankCount (hole_cards ++ board_cards) i)) with
  | nil =>
    have hno2 : ∀ j, j < 13 → ¬(2 ≤ rankCount (hole_cards ++ board_cards) j) := by
      intro j hj
      have := filter_range_reverse_nil hfl j hj
      simpa using this
    have hres : get_two_pair_tiebreak hole_cards board_cards = none := by
      unfold get_two_pair_tiebreak
      dsimp only
      rw [hfl]
      rfl
    constructor
    · intro a b k h
      rw [hres] at h
      simp at h
    · rw [hres]
      refine iff_of_true rfl ?_
      rintro ⟨r, s, hr2, hr14, _, _, _, h2r, _⟩
      exact hno2 (r - 2) (by omega) h2r
  | cons a₀ rest =>
    obtain ⟨ha₀p, ha₀lt, ha₀max, hrest⟩ := filter_range_reverse_cons hfl
    have ha₀2 : 2 ≤ rankCount (hole_cards ++ board_cards) a₀ :=
      of_decide_eq_true ha₀p
    have ha₀max' : ∀ j, j < 13 →
        2 ≤ rankCount (hole_cards ++ board_cards) j → j ≤ a₀ := fun j hj h2 =>
      ha₀max j hj (decide_eq_true h2)
    cases hrest' : rest with
    | nil =>
      rw [hrest'] at hrest
      have hnolow : ∀ j, j < a₀ →
          ¬(2 ≤ rankCount (hole_cards ++ board_cards) j) := by
        intro j hj
        have := filter_range_reverse_nil hrest.symm j hj
        simpa using this
      have hres : get_two_pair_tiebreak hole_cards board_cards = none := by
        unfold get_two_pair_tiebreak
        dsimp only
        rw [hfl, hrest']
        rfl
      constructor
      · intro a b k h
        rw [hres] at h
        simp at h
      · rw [hres]
        refine iff_of_true rfl ?_
        rintro ⟨r, s, hr2, hr14, hs2, hs14, hrs, h2r, h2s⟩
        have hra : r - 2 = a₀ := by
          have h1 : r - 2 ≤ a₀ := ha₀max' (r - 2) (by omega) h2r
          rcases Nat.lt_or_ge (r - 2) a₀ with hlt | hge
          · exact absurd h2r (hnolow (r - 2) hlt)
          · omega
        have hsa : s - 2 = a₀ := by
          have h1 : s - 2 ≤ a₀ := ha₀max' (s - 2) (by omega) h2s
          rcases Nat.lt_or_ge (s - 2) a₀ with hlt | hge
          · exact absurd h2s (hnolow (s - 2) hlt)
          · omega
        omega
    | cons b₀ rest2 =>
      rw [hrest'] at hrest
      obtain ⟨hb₀p, hb₀lt, hb₀max, _⟩ := filter_range_reverse_cons hrest.symm
      have hb₀2 : 2 ≤ rankCount (hole_cards ++ board_cards) b₀ :=
        of_decide_eq_true hb₀p
      have hb₀max' : ∀ j, j < a₀ →
          2 ≤ rankCount (hole_cards ++ board_cards) j → j ≤ b₀ := fun j hj h2 =>
        hb₀max j hj (decide_eq_true h2)
      -- the kicker scan on the decremented counts
      obtain ⟨j₀, hj₀13, hj₀pos⟩ := twoPair_kicker_exists
        (hole_cards ++ board_cards) hv hlen a₀ b₀ ha₀lt (by omega) (by omega)
      cases hkf : ((List.range 13).reverse).find?
          (fun i => decide (0 <
            (if i = a₀ + 2 - 2 then rankCount (hole_cards ++ board_cards) i - 2
             else if i = b₀ + 2 - 2 then rankCount (hole_cards ++ board_cards) i - 2
             else rankCount (hole_cards ++ board_cards) i))) with
      | none =>
        exfalso
        have := find?_range_reverse_none hkf j₀ hj₀13
        simp only [Nat.add_sub_cancel, decide_eq_false_iff_not] at this
        exact this hj₀pos
      | some ki =>
        obtain ⟨hkp, hkilt, hkmax⟩ := find?_range_reverse_some hkf
        simp only [Nat.add_sub_cancel, decide_eq_true_eq] at hkp
        have hres : get_two_pair_tiebreak hole_cards board_cards =
            some (a₀ + 2, b₀ + 2, ki + 2) := by
          unfold get_two_pair_tiebreak
          dsimp only
          rw [hfl, hrest']
          simp only [List.map_cons]
          rw [hkf]
        constructor
        · intro a b k h
          rw [hres] at h
          injection h with h'
          obtain ⟨h1, h23⟩ := Prod.ext_iff.mp h'
          obtain ⟨h2, h3⟩ := Prod.ext_iff.mp h23
          dsimp at h1 h2 h3
          subst h1
          subst h2
          subst h3
          have hconv : ∀ i : Nat,
              (if i = a₀ then rankCount (hole_cards ++ board_cards) i - 2
               else if i = b₀ then rankCount (hole_cards ++ board_cards) i - 2
               else rankCount (hole_cards ++ board_cards) i) =
              rankCount (hole_cards ++ board_cards) ((i + 2) - 2) -
                (if i + 2 = a₀ + 2 then 2 else if i + 2 = b₀ + 2 then 2 else 0) := by
            intro i
            simp only [Nat.add_sub_cancel]
            by_cases h1 : i = a₀
            · have : i + 2 = a₀ + 2 := by omega
              rw [if_pos h1, if_pos this]
            · have hna : ¬(i + 2 = a₀ + 2) := by omega
              rw [if_neg h1, if_neg hna]
              by_cases h2 : i = b₀
              · have : i + 2 = b₀ + 2 := by omega
                rw [if_pos h2, if_pos this]
              · have hnb : ¬(i + 2 = b₀ + 2) := by omega
                rw [if_neg h2, if_neg hnb]
                omega
          refine ⟨by omega, by omega, by omega, by simpa using ha₀2,
            by simpa using hb₀2, ?_, ?_, by omega, by omega, ?_, ?_⟩
          · intro r hr2 hr14 h2r
            have := ha₀max' (r - 2) (by omega) h2r
            omega
          · intro r hr2 hr14 hrne h2r
            have h1 : r - 2 ≤ a₀ := ha₀max' (r - 2) (by omega) h2r
            have h2 : r - 2 < a₀ := by omega
            have := hb₀max' (r - 2) h2 h2r
            omega
          · have := hconv ki
            rw [← this]
            exact hkp
          · intro r hr2 hr14 hrpos
            have hj := hkmax (r - 2) (by omega)
              (by
                simp only [Nat.add_sub_cancel, decide_eq_true_eq]
                have := hconv (r - 2)
                simp only [Nat.add_sub_cancel] at this
                have hr' : r - 2 + 2 = r := by omega
                rw [hr'] at this
                rw [this]
                exact hrpos)
            omega
        · rw [hres]
          refine iff_of_false (by simp) ?_
          intro hno
          exact hno ⟨a₀ + 2, b₀ + 2, by omega, by omega, by omega, by omega,
            by omega, by simpa using ha₀2, by simpa using hb₀2⟩

def tpHole : List Card := [⟨7, 1⟩, ⟨7, 3⟩]

def tpBoard : List Card := [⟨5, 2⟩, ⟨5, 1⟩, ⟨2, 3⟩, ⟨13, 2⟩, ⟨9, 1⟩]

theorem get_two_pair_tiebreak_spec_witness :
    (∀ c ∈ tpHole ++ tpBoard, 2 ≤ c.rank ∧ c.rank ≤ 14) ∧
    (tpHole ++ tpBoard).length = 7 ∧
    get_two_pair_tiebreak tpHole tpBoard = some (7, 5, 13) ∧
    ((∀ a b k, get_two_pair_tiebreak tpHole tpBoard = some (a, b, k) →
      2 ≤ b ∧ b < a ∧ a ≤ 14 ∧
      2 ≤ rankCount (tpHole ++ tpBoard) (a - 2) ∧
      2 ≤ rankCount (tpHole ++ tpBoard) (b - 2) ∧
      (∀ r, 2 ≤ r → r ≤ 14 →
        2 ≤ rankCount (tpHole ++ tpBoard) (r - 2) → r ≤ a) ∧
      (∀ r, 2 ≤ r → r ≤ 14 → r ≠ a →
        2 ≤ rankCount (tpHole ++ tpBoard) (r - 2) → r ≤ b) ∧
      2 ≤ k ∧ k ≤ 14 ∧
      0 < rankCount (tpHole ++ tpBoard) (k - 2) -
        (if k = a then 2 else if k = b then 2 else 0) ∧
      (∀ r, 2 ≤ r → r ≤ 14 →
        0 < rankCount (tpHole ++ tpBoard) (r - 2) -
          (if r = a then 2 else if r = b then 2 else 0) → r ≤ k)) ∧
    (get_two_pair_tiebreak tpHole tpBoard = none ↔
      ¬ ∃ r s, 2 ≤ r ∧ r ≤ 14 ∧ 2 ≤ s ∧ s ≤ 14 ∧ r ≠ s ∧
        2 ≤ rankCount (tpHole ++ tpBoard) (r - 2) ∧
        2 ≤ rankCount (tpHole ++ tpBoard) (s - 2))) :=
  ⟨by decide, rfl, rfl, get_two_pair_tiebreak_spec tpHole tpBoard (by decide) rfl⟩

/-! ## C7: the evaluation depends only on the multiset of the 7 cards -/

lemma sortDesc_eq_of_perm {l₁ l₂ : List Nat} (h : l₁.Perm l₂) :
    sortDesc l₁ = sortDesc l₂ :=
  List.eq_of_perm_of_sorted
    ((List.perm_insertionSort _ l₁).trans (h.trans (List.perm_insertionSort _ l₂).symm))
    (List.sorted_insertionSort _ l₁) (List.sorted_insertionSort _ l₂)

lemma suitBucket_perm {l₁ l₂ : List Card} (h : l₁.Perm l₂) (i : Nat) :
    (suitBucket l₁ i).Perm (suitBucket l₂ i) :=
  (h.filter _).map _

lemma is_royal_flush_perm {h₁ b₁ h₂ b₂ : List Card}
    (hp : (h₁ ++ b₁).Perm (h₂ ++ b₂)) :
    is_royal_flush h₁ b₁ = is_royal_flush h₂ b₂ := by
  unfold is_royal_flush
  rw [suitMask_perm hp]

lemma get_straight_flush_perm {h₁ b₁ h₂ b₂ : List Card}
    (hp : (h₁ ++ b₁).Perm (h₂ ++ b₂)) :
    get_straight_flush_suit_and_rank h₁ b₁ =
      get_straight_flush_suit_and_rank h₂ b₂ := by
  unfold get_straight_flush_suit_and_rank
  rw [suitMask_perm hp]

lemma four_of_a_kind_perm {h₁ b₁ h₂ b₂ : List Card}
    (hp : (h₁ ++ b₁).Perm (h₂ ++ b₂)) :
    four_of_a_kind_and_kicker h₁ b₁ = four_of_a_kind_and_kicker h₂ b₂ := by
  unfold four_of_a_kind_and_kicker
  rw [rankCount_perm hp]

lemma get_best_full_house_perm {h₁ b₁ h₂ b₂ : List Card}
    (hp : (h₁ ++ b₁).Perm (h₂ ++ b₂)) :
    get_best_full_house h₁ b₁ = get_best_full_house h₂ b₂ := by
  unfold get_best_full_house
  rw [rankCount_perm hp]

lemma flushBest_perm {l₁ l₂ : List Card} (hp : l₁.Perm l₂) :
    flushBest l₁ = flushBest l₂ := by
  unfold flushBest
  apply List.foldl_ext
  intro acc i _
  dsimp only
  rw [(suitBucket_perm hp i).length_eq, sortDesc_eq_of_perm (suitBucket_perm hp i)]

lemma get_flush_score_fast_perm {h₁ b₁ h₂ b₂ : List Card}
    (hp : (h₁ ++ b₁).Perm (h₂ ++ b₂)) :
    get_flush_score_fast h₁ b₁ = get_flush_score_fast h₂ b₂ := by
  unfold get_flush_score_fast
  rw [flushBest_perm hp]

lemma get_best_straight_rank_perm {h₁ b₁ h₂ b₂ : List Card}
    (hp : (h₁ ++ b₁).Perm (h₂ ++ b₂)) :
    get_best_straight_rank h₁ b₁ = get_best_straight_rank h₂ b₂ := by
  unfold get_best_straight_rank
  rw [unionRankMask_perm hp]

lemma get_three_of_a_kind_perm {h₁ b₁ h₂ b₂ : List Card}
    (hp : (h₁ ++ b₁).Perm (h₂ ++ b₂)) :
    get_three_of_a_kind_tiebreak h₁ b₁ = get_three_of_a_kind_tiebreak h₂ b₂ := by
  unfold get_three_of_a_kind_tiebreak
  rw [rankCount_perm hp]

lemma get_two_pair_perm {h₁ b₁ h₂ b₂ : List Card}
    (hp : (h₁ ++ b₁).Perm (h₂ ++ b₂)) :
    get_two_pair_tiebreak h₁ b₁ = get_two_pair_tiebreak h₂ b₂ := by
  unfold get_two_pair_tiebreak
  rw [rankCount_perm hp]

lemma get_one_pair_perm {h₁ b₁ h₂ b₂ : List Card}
    (hp : (h₁ ++ b₁).Perm (h₂ ++ b₂)) :
    get_one_pair_tiebreak h₁ b₁ = get_one_pair_tiebreak h₂ b₂ := by
  unfold get_one_pair_tiebreak
  rw [rankCount_perm hp]

lemma get_high_card_perm {h₁ b₁ h₂ b₂ : List Card}
    (hp : (h₁ ++ b₁).Perm (h₂ ++ b₂)) :
    get_high_card_tiebreak h₁ b₁ = get_high_card_tiebreak h₂ b₂ := by
  unfold get_high_card_tiebreak
  rw [sortDesc_eq_of_perm (hp.map (fun c => c.rank))]

/-- C7: for any two 2+5 repartitions of the same multiset of 7 valid
cards (any permutation, any hole/board split), `holdem_eval` produces the
identical result — category, tiebreak, and even the same error when the
straight scan raises. -/
theorem holdem_eval_perm_invariant (h₁ b₁ h₂ b₂ : List Card)
    (_hv : ∀ c ∈ h₁ ++ b₁, 2 ≤ c.rank ∧ c.rank ≤ 14 ∧ 1 ≤ c.suit ∧ c.suit ≤ 4)
    (hh₁ : h₁.length = 2) (hb₁ : b₁.length = 5)
    (hh₂ : h₂.length = 2) (hb₂ : b₂.length = 5)
    (hp : (h₁ ++ b₁).Perm (h₂ ++ b₂)) :
    holdem_eval h₁ b₁ = holdem_eval h₂ b₂ := by
  unfold holdem_eval
  rw [if_neg (show ¬(b₁.length ≠ 5 ∨ h₁.length ≠ 2) by simp [hh₁, hb₁]),
    if_neg (show ¬(b₂.length ≠ 5 ∨ h₂.length ≠ 2) by simp [hh₂, hb₂]),
    is_royal_flush_perm hp, get_straight_flush_perm hp, four_of_a_kind_perm hp,
    get_best_full_house_perm hp, get_flush_score_fast_perm hp,
    get_best_straight_rank_perm hp, get_three_of_a_kind_perm hp,
    get_two_pair_perm hp, get_one_pair_perm hp, get_high_card_perm hp]

def permHoleA : List Card := [⟨7, 1⟩, ⟨7, 3⟩]

def permBoardA : List Card := [⟨5, 2⟩, ⟨5, 1⟩, ⟨2, 3⟩, ⟨13, 2⟩, ⟨9, 1⟩]

def permHoleB : List Card := [⟨13, 2⟩, ⟨5, 1⟩]

def permBoardB : List Card := [⟨9, 1⟩, ⟨7, 3⟩, ⟨2, 3⟩, ⟨7, 1⟩, ⟨5, 2⟩]

theorem holdem_eval_perm_invariant_witness :
    (∀ c ∈ permHoleA ++ permBoardA,
      2 ≤ c.rank ∧ c.rank ≤ 14 ∧ 1 ≤ c.suit ∧ c.suit ≤ 4) ∧
    permHoleA.length = 2 ∧ permBoardA.length = 5 ∧
    permHoleB.length = 2 ∧ permBoardB.length = 5 ∧
    (permHoleA ++ permBoardA).Perm (permHoleB ++ permBoardB) ∧
    holdem_eval permHoleA permBoardA = holdem_eval permHoleB permBoardB :=
  ⟨by decide, rfl, rfl, rfl, rfl, by decide,
    holdem_eval_perm_invariant permHoleA permBoardA permHoleB permBoardB
      (by decide) rfl rfl rfl rfl (by decide)⟩

/-! ## C8: at most one suit mask can contain a 5-card straight -/

/-- A 13-bit rank mask contains a 5-card straight in the sense of the
spec: five consecutive ranks topped by some `h` in [6,14], or the wheel
ranks {14,2,3,4,5}.  (A top rank of 5 via the consecutive rule would need
a bit for rank 1, which no mask has.) -/
def maskHasStraight (m : Nat) : Prop :=
  (∃ h, 6 ≤ h ∧ h ≤ 14 ∧ ∀ r, h - 4 ≤ r → r ≤ h → m.testBit (r - 2) = true) ∨
  (m.testBit (14 - 2) = true ∧ m.testBit (2 - 2) = true ∧
    m.testBit (3 - 2) = true ∧ m.testBit (4 - 2) = true ∧
    m.testBit (5 - 2) = true)

lemma countP_add_countP_le_length (l : List Card) (p q : Card → Bool)
    (hdisj : ∀ x ∈ l, ¬(p x = true ∧ q x = true)) :
    l.countP p + l.countP q ≤ l.length := by
  induction l with
  | nil => simp
  | cons c t ih =>
    have hd := hdisj c (List.mem_cons_self c t)
    have ih' := ih (fun x hx => hdisj x (List.mem_cons_of_mem c hx))
    rw [List.countP_cons, List.countP_cons, List.length_cons]
    by_cases hp : p c = true <;> by_cases hq : q c = true <;>
      simp [hp, hq] at hd ⊢ <;> omega

lemma suit_count_ge_of_straight (cards : List Card) (hnd : cards.Nodup)
    (hv : ∀ c ∈ cards, 2 ≤ c.rank ∧ 1 ≤ c.suit) (i : Nat)
    (hstr : maskHasStraight (suitMask cards i)) :
    5 ≤ cards.countP (fun c => decide (c.suit - 1 = i)) := by
  have hbit : ∀ b, (suitMask cards i).testBit b = true →
      b ∈ (cards.filter (fun c => decide (c.suit - 1 = i))).map
        (fun c => c.rank - 2) := by
    intro b hb
    rw [suitMask_testBit] at hb
    obtain ⟨c, hc, hcp⟩ := List.any_eq_true.mp hb
    rw [Bool.and_eq_true] at hcp
    refine List.mem_map.mpr ⟨c, List.mem_filter.mpr ⟨hc, hcp.1⟩, ?_⟩
    simpa using hcp.2
  have hndM : ((cards.filter (fun c => decide (c.suit - 1 = i))).map
      (fun c => c.rank - 2)).Nodup := by
    refine List.Nodup.map_on ?_ (hnd.filter _)
    intro x hx y hy hxy
    have hxmem := List.mem_of_mem_filter hx
    have hymem := List.mem_of_mem_filter hy
    have hxs : x.suit - 1 = i := by simpa using List.of_mem_filter hx
    have hys : y.suit - 1 = i := by simpa using List.of_mem_filter hy
    have hx1 := hv x hxmem
    have hy1 := hv y hymem
    have hsuit : x.suit = y.suit := by omega
    have hrank : x.rank = y.rank := by omega
    obtain ⟨xr, xs⟩ := x
    obtain ⟨yr, ys⟩ := y
    simp_all
  have hkey : ∀ bs : List Nat, bs.Nodup →
      (∀ b ∈ bs, (suitMask cards i).testBit b = true) →
      bs.length ≤ cards.countP (fun c => decide (c.suit - 1 = i)) := by
    intro bs hbsnd hbsmem
    have hsub : bs.toFinset ⊆
        ((cards.filter (fun c => decide (c.suit - 1 = i))).map
          (fun c => c.rank - 2)).toFinset := by
      intro b hb
      rw [List.mem_toFinset] at hb ⊢
      exact hbit b (hbsmem b hb)
    calc bs.length = bs.toFinset.card := (List.toFinset_card_of_nodup hbsnd).symm
      _ ≤ ((cards.filter (fun c => decide (c.suit - 1 = i))).map
            (fun c => c.rank - 2)).toFinset.card := Finset.card_le_card hsub
      _ ≤ ((cards.filter (fun c => decide (c.suit - 1 = i))).map
            (fun c => c.rank - 2)).length := List.toFinset_card_le _
      _ = (cards.filter (fun c => decide (c.suit - 1 = i))).length :=
          List.length_map _ _
      _ = cards.countP (fun c => decide (c.suit - 1 = i)) :=
          (List.countP_eq_length_filter _ _).symm
  rcases hstr with ⟨h, hh6, hh14, hall⟩ | hwheel
  · have hb1 : (suitMask cards i).testBit (h - 6) = true := by
      have := hall (h - 4) (by omega) (by omega)
      have harg : h - 4 - 2 = h - 6 := by omega
      rwa [harg] at this
    have hb2 : (suitMask cards i).testBit (h - 5) = true := by
      have := hall (h - 3) (by omega) (by omega)
      have harg : h - 3 - 2 = h - 5 := by omega
      rwa [harg] at this
    have hb3 : (suitMask cards i).testBit (h - 4) = true := by
      have := hall (h - 2) (by omega) (by omega)
      have harg : h - 2 - 2 = h - 4 := by omega
      rwa [harg] at this
    have hb4 : (suitMask cards i).testBit (h - 3) = true := by
      have := hall (h - 1) (by omega) (by omega)
      have harg : h - 1 - 2 = h - 3 := by omega
      rwa [harg] at this
    have hb5 : (suitMask cards i).testBit (h - 2) = true := by
      have := hall h (by omega) (by omega)
      exact this
    have hlen5 : ([h - 6, h - 5, h - 4, h - 3, h - 2] : List Nat).length = 5 := rfl
    have hnd5 : ([h - 6, h - 5, h - 4, h - 3, h - 2] : List Nat).Nodup := by
      simp only [List.nodup_cons, List.mem_cons, List.not_mem_nil,
        List.nodup_nil, not_or, or_false, not_false_eq_true, and_true]
      omega
    have := hkey [h - 6, h - 5, h - 4, h - 3, h - 2] hnd5 ?_
    · omega
    · intro b hb
      simp only [List.mem_cons, List.not_mem_nil, or_false] at hb
      rcases hb with rfl | rfl | rfl | rfl | rfl
      · exact hb1
      · exact hb2
      · exact hb3
      · exact hb4
      · exact hb5
  · obtain ⟨w1, w2, w3, w4, w5⟩ := hwheel
    have hnd5 : ([12, 0, 1, 2, 3] : List Nat).Nodup := by decide
    have := hkey [12, 0, 1, 2, 3] hnd5 ?_
    · simpa using this
    · intro b hb
      simp only [List.mem_cons, List.not_mem_nil, or_false] at hb
      rcases hb with rfl | rfl | rfl | rfl | rfl
      · exact w1
      · exact w2
      · exact w3
      · exact w4
      · exact w5

/-- C8: with 7 pairwise-distinct valid cards, at most one suit's rank mask
(the masks scanned by `get_straight_flush_suit_and_rank`) can contain a
5-card straight — two suits would require 10 distinct cards — so the
selected suit is uniquely determined and no inter-suit tie-break is ever
exercised. -/
theorem straight_flush_suit_unique (hole_cards board_cards : List Card)
    (hnd : (hole_cards ++ board_cards).Nodup)
    (hv : ∀ c ∈ hole_cards ++ board_cards,
      2 ≤ c.rank ∧ c.rank ≤ 14 ∧ 1 ≤ c.suit ∧ c.suit ≤ 4)
    (hlen : (hole_cards ++ board_cards).length = 7) :
    ∀ s₁ s₂, 1 ≤ s₁ → s₁ ≤ 4 → 1 ≤ s₂ → s₂ ≤ 4 →
      maskHasStraight (suitMask (hole_cards ++ board_cards) (s₁ - 1)) →
      maskHasStraight (suitMask (hole_cards ++ board_cards) (s₂ - 1)) →
      s₁ = s₂ := by
  intro s₁ s₂ hs₁1 hs₁4 hs₂1 hs₂4 hm₁ hm₂
  by_contra hne
  have hv' : ∀ c ∈ hole_cards ++ board_cards, 2 ≤ c.rank ∧ 1 ≤ c.suit :=
    fun c hc => ⟨(hv c hc).1, (hv c hc).2.2.1⟩
  have h₁ := suit_count_ge_of_straight (hole_cards ++ board_cards) hnd hv'
    (s₁ - 1) hm₁
  have h₂ := suit_count_ge_of_straight (hole_cards ++ board_cards) hnd hv'
    (s₂ - 1) hm₂
  have hdisj : ∀ x ∈ hole_cards ++ board_cards,
      ¬((decide (x.suit - 1 = s₁ - 1)) = true ∧
        (decide (x.suit - 1 = s₂ - 1)) = true) := by
    intro x _
    rintro ⟨hx1, hx2⟩
    simp only [decide_eq_true_eq] at hx1 hx2
    omega
  have := countP_add_countP_le_length (hole_cards ++ board_cards) _ _ hdisj
  omega

def sfHole : List Card := [⟨8, 1⟩, ⟨9, 1⟩]

def sfBoard : List Card := [⟨10, 1⟩, ⟨11, 1⟩, ⟨12, 1⟩, ⟨2, 2⟩, ⟨4, 3⟩]

theorem straight_flush_suit_unique_witness :
    (sfHole ++ sfBoard).Nodup ∧
    (∀ c ∈ sfHole ++ sfBoard,
      2 ≤ c.rank ∧ c.rank ≤ 14 ∧ 1 ≤ c.suit ∧ c.suit ≤ 4) ∧
    (sfHole ++ sfBoard).length = 7 ∧
    (∀ s₁ s₂, 1 ≤ s₁ → s₁ ≤ 4 → 1 ≤ s₂ → s₂ ≤ 4 →
      maskHasStraight (suitMask (sfHole ++ sfBoard) (s₁ - 1)) →
      maskHasStraight (suitMask (sfHole ++ sfBoard) (s₂ - 1)) →
      s₁ = s₂) :=
  ⟨by decide, by decide, rfl,
    straight_flush_suit_unique sfHole sfBoard (by decide) (by decide) rfl⟩

/-! ## C9: a straight-flush result never carries top rank 14 -/

lemma except_bind_ok {α β : Type} (a : α) (f : α → Except String β) :
    (Except.ok a >>= f) = f a := rfl

lemma except_bind_error {α β : Type} (e : String) (f : α → Except String β) :
    ((Except.error e : Except String α) >>= f) = Except.error e := rfl

lemma and_pow_ne_zero_iff_testBit (m k : Nat) :
    (m &&& (1 <<< k) ≠ 0) ↔ m.testBit k = true := by
  rw [Nat.one_shiftLeft]
  constructor
  · intro h
    by_contra hb
    apply h
    apply Nat.eq_of_testBit_eq
    intro b
    rw [Nat.testBit_and, Nat.zero_testBit]
    by_cases hbk : b = k
    · subst hbk
      rw [Bool.not_eq_true] at hb
      simp [hb]
    · rw [Nat.testBit_two_pow_of_ne (fun hh => hbk hh.symm)]
      simp
  · intro h hzero
    have hz : (m &&& 2 ^ k).testBit k = false := by
      rw [hzero]
      exact Nat.zero_testBit k
    rw [Nat.testBit_and, h, Nat.testBit_two_pow_self] at hz
    simp at hz

lemma allHasRank_ok_true {m : Nat} : ∀ {rs : List Nat},
    allHasRank m rs = Except.ok true →
    ∀ r ∈ rs, 2 ≤ r ∧ m &&& (1 <<< (r - 2)) ≠ 0 := by
  intro rs
  induction rs with
  | nil =>
    intro _ r hr
    simp at hr
  | cons r rs ih =>
    intro h r' hr'
    unfold allHasRank hasRank at h
    by_cases hr2 : r < 2
    · rw [if_pos hr2, except_bind_error] at h
      simp at h
    · rw [if_neg hr2, except_bind_ok] at h
      by_cases hbit : m &&& (1 <<< (r - 2)) ≠ 0
      · rw [if_pos (by simpa using hbit)] at h
        rcases List.mem_cons.mp hr' with rfl | hmem
        · exact ⟨by omega, hbit⟩
        · exact ih h r' hmem
      · rw [if_neg (by simpa using hbit)] at h
        simp at h

lemma straightLoop_ok_some {m : Nat} : ∀ {hs : List Nat} {t : Nat},
    straightLoop m hs = Except.ok (some t) → t ∈ hs ∨ t = 5 := by
  intro hs
  induction hs with
  | nil =>
    intro t h
    unfold straightLoop at h
    cases hA : allHasRank m [14, 2, 3, 4, 5] with
    | error e =>
      rw [hA, except_bind_error] at h
      simp at h
    | ok b =>
      rw [hA, except_bind_ok] at h
      cases b with
      | true =>
        simp only [if_pos] at h
        right
        injection h with h'
        injection h' with h''
        omega
      | false => simp at h
  | cons hd tl ih =>
    intro t h
    unfold straightLoop at h
    cases hA : allHasRank m [hd, hd - 1, hd - 2, hd - 3, hd - 4] with
    | error e =>
      rw [hA, except_bind_error] at h
      simp at h
    | ok b =>
      rw [hA, except_bind_ok] at h
      cases b with
      | true =>
        simp only [if_pos] at h
        left
        injection h with h'
        injection h' with h''
        rw [h'']
        exact List.mem_cons_self t tl
      | false =>
        simp only [Bool.false_eq_true, if_neg, if_false] at h
        rcases ih h with hmem | h5
        · exact Or.inl (List.mem_cons_of_mem hd hmem)
        · exact Or.inr h5

lemma getBestStraightInMask_ok_some_bounds {m t : Nat}
    (h : getBestStraightInMask m = Except.ok (some t)) : 5 ≤ t ∧ t ≤ 14 := by
  rcases straightLoop_ok_some h with hmem | h5
  · simp only [List.mem_cons, List.not_mem_nil, or_false] at hmem
    rcases hmem with rfl | rfl | rfl | rfl | rfl | rfl | rfl | rfl | rfl | rfl <;>
      omega
  · omega

lemma getBestStraightInMask_some14 {m : Nat}
    (h : getBestStraightInMask m = Except.ok (some 14)) :
    allHasRank m [14, 13, 12, 11, 10] = Except.ok true := by
  unfold getBestStraightInMask at h
  unfold straightLoop at h
  norm_num at h
  cases hA : allHasRank m [14, 13, 12, 11, 10] with
  | error e =>
    rw [hA, except_bind_error] at h
    simp at h
  | ok b =>
    rw [hA, except_bind_ok] at h
    cases b with
    | true => rfl
    | false =>
      exfalso
      simp only [Bool.false_eq_true, if_neg, if_false] at h
      rcases straightLoop_ok_some h with hmem | h5
      · simp only [List.mem_cons, List.not_mem_nil, or_false] at hmem
        omega
      · omega

lemma ROYAL_MASK_testBit (b : Nat) :
    ROYAL_MASK.testBit b = decide (8 ≤ b ∧ b ≤ 12) := by
  by_cases hb : b < 13
  · interval_cases b <;> decide
  · have h2 : ROYAL_MASK < 2 ^ b := by
      have h1 : ROYAL_MASK < 2 ^ 13 := by decide
      exact lt_of_lt_of_le h1 (Nat.pow_le_pow_right (by norm_num) (by omega))
    rw [Nat.testBit_lt_two_pow h2]
    have : ¬(8 ≤ b ∧ b ≤ 12) := by omega
    simp [this]

lemma royal_of_allHasRank {m : Nat}
    (h : allHasRank m [14, 13, 12, 11, 10] = Except.ok true) :
    m &&& ROYAL_MASK = ROYAL_MASK := by
  have hbits := allHasRank_ok_true h
  have h14 := ((hbits 14 (by simp)).2)
  have h13 := ((hbits 13 (by simp)).2)
  have h12 := ((hbits 12 (by simp)).2)
  have h11 := ((hbits 11 (by simp)).2)
  have h10 := ((hbits 10 (by simp)).2)
  rw [and_pow_ne_zero_iff_testBit] at h14 h13 h12 h11 h10
  norm_num at h14 h13 h12 h11 h10
  apply Nat.eq_of_testBit_eq
  intro b
  rw [Nat.testBit_and, ROYAL_MASK_testBit]
  by_cases hb : 8 ≤ b ∧ b ≤ 12
  · have hm : m.testBit b = true := by
      obtain ⟨hb1, hb2⟩ := hb
      interval_cases b
      · exact h10
      · exact h11
      · exact h12
      · exact h13
      · exact h14
    simp [hm, hb]
  · simp [hb]

lemma sfLoop_ok {masks : Nat → Nat} : ∀ {is_ : List Nat} {bs bs' : Option Nat}
    {bt bt' : Nat},
    sfLoop masks is_ bs bt = Except.ok (bs', bt') →
    (bs' = bs ∧ bt' = bt) ∨
      ∃ i ∈ is_, getBestStraightInMask (masks i) = Except.ok (some bt') := by
  intro is_
  induction is_ with
  | nil =>
    intro bs bs' bt bt' h
    unfold sfLoop at h
    left
    injection h with h'
    obtain ⟨h1, h2⟩ := Prod.ext_iff.mp h'
    exact ⟨h1.symm, h2.symm⟩
  | cons i rest ih =>
    intro bs bs' bt bt' h
    unfold sfLoop at h
    cases hg : getBestStraightInMask (masks i) with
    | error e =>
      rw [hg, except_bind_error] at h
      simp at h
    | ok tr =>
      rw [hg, except_bind_ok] at h
      cases tr with
      | some t =>
        dsimp only at h
        by_cases hlt : bt < t
        · rw [if_pos hlt] at h
          rcases ih h with ⟨h1, h2⟩ | ⟨j, hj, hgj⟩
          · right
            refine ⟨i, List.mem_cons_self i rest, ?_⟩
            rw [h2]
            exact hg
          · exact Or.inr ⟨j, List.mem_cons_of_mem i hj, hgj⟩
        · rw [if_neg hlt] at h
          rcases ih h with hl | ⟨j, hj, hgj⟩
          · exact Or.inl hl
          · exact Or.inr ⟨j, List.mem_cons_of_mem i hj, hgj⟩
      | none =>
        dsimp only at h
        rcases ih h with hl | ⟨j, hj, hgj⟩
        · exact Or.inl hl
        · exact Or.inr ⟨j, List.mem_cons_of_mem i hj, hgj⟩

lemma royalLoop_eq_false {masks : Nat → Nat} : ∀ {is_ : List Nat} {s : Option Nat},
    royalLoop masks is_ = (false, s) →
    ∀ i ∈ is_, masks i &&& ROYAL_MASK ≠ ROYAL_MASK := by
  intro is_
  induction is_ with
  | nil =>
    intro s _ i hi
    simp at hi
  | cons j rest ih =>
    intro s h i hi
    unfold royalLoop at h
    by_cases hcond : masks j &&& ROYAL_MASK = ROYAL_MASK
    · rw [if_pos hcond] at h
      simp at h
    · rw [if_neg hcond] at h
      rcases List.mem_cons.mp hi with rfl | hmem
      · exact hcond
      · exact ih h i hmem

/-- C9: whenever `holdem_eval` classifies a hand as STRAIGHT_FLUSH, the
tiebreak top rank lies in [5,13] — never 14, because a suit mask holding
an ace-high straight contains all of ranks 10–14 and is caught by the
royal-flush detector, which runs first. -/
theorem straight_flush_rank_bounds (hole_cards board_cards : List Card) (r : Nat)
    (h : holdem_eval hole_cards board_cards =
      Except.ok (HoldemHandType.STRAIGHT_FLUSH, Tiebreak.rank r)) :
    5 ≤ r ∧ r ≤ 13 := by
  unfold holdem_eval at h
  by_cases harity : board_cards.length ≠ 5 ∨ hole_cards.length ≠ 2
  · rw [if_pos harity] at h
    simp at h
  · rw [if_neg harity] at h
    rcases hroyal : is_royal_flush hole_cards board_cards with ⟨b, s⟩
    rw [hroyal] at h
    cases b with
    | true => simp at h
    | false =>
      dsimp only at h
      cases hsf : get_straight_flush_suit_and_rank hole_cards board_cards with
      | error e =>
        rw [hsf] at h
        simp at h
      | ok osf =>
        rw [hsf] at h
        cases osf with
        | none =>
          dsimp only at h
          exfalso
          cases hfoak : four_of_a_kind_and_kicker hole_cards board_cards with
          | some x =>
            obtain ⟨q, k⟩ := x
            rw [hfoak] at h
            simp at h
          | none =>
            rw [hfoak] at h
            dsimp only at h
            cases hfh : get_best_full_house hole_cards board_cards with
            | some x =>
              obtain ⟨t2, p2⟩ := x
              rw [hfh] at h
              simp at h
            | none =>
              rw [hfh] at h
              dsimp only at h
              cases hfl : get_flush_score_fast hole_cards board_cards with
              | some sc =>
                rw [hfl] at h
                simp at h
              | none =>
                rw [hfl] at h
                dsimp only at h
                cases hst : get_best_straight_rank hole_cards board_cards with
                | error e =>
                  rw [hst] at h
                  simp at h
                | ok ost =>
                  rw [hst] at h
                  cases ost with
                  | some sr => simp at h
                  | none =>
                    dsimp only at h
                    cases htr : get_three_of_a_kind_tiebreak hole_cards board_cards with
                    | some x =>
                      obtain ⟨t3, k1, k2⟩ := x
                      rw [htr] at h
                      simp at h
                    | none =>
                      rw [htr] at h
                      dsimp only at h
                      cases htp : get_two_pair_tiebreak hole_cards board_cards with
                      | some x =>
                        obtain ⟨a2, b2, k2⟩ := x
                        rw [htp] at h
                        simp at h
                      | none =>
                        rw [htp] at h
                        dsimp only at h
                        cases hop : get_one_pair_tiebreak hole_cards board_cards with
                        | some x =>
                          obtain ⟨p1, k1, k2, k3⟩ := x
                          rw [hop] at h
                          simp at h
                        | none =>
                          rw [hop] at h
                          simp at h
        | some pr =>
          obtain ⟨sfs, sfr⟩ := pr
          dsimp only at h
          injection h with h'
          obtain ⟨_, h2⟩ := Prod.ext_iff.mp h'
          dsimp at h2
          injection h2 with h3
          subst h3
          unfold get_straight_flush_suit_and_rank at hsf
          dsimp only at hsf
          cases hloop : sfLoop (suitMask (hole_cards ++ board_cards))
              [0, 1, 2, 3] none 0 with
          | error e =>
            rw [hloop, except_bind_error] at hsf
            simp at hsf
          | ok p =>
            obtain ⟨bs, bt⟩ := p
            rw [hloop, except_bind_ok] at hsf
            cases bs with
            | none =>
              dsimp only at hsf
              simp at hsf
            | some s' =>
              dsimp only at hsf
              injection hsf with hsf'
              injection hsf' with hsf''
              obtain ⟨_, hbt⟩ := Prod.ext_iff.mp hsf''
              dsimp at hbt
              rcases sfLoop_ok hloop with ⟨h1, _⟩ | ⟨i, hi, hgi⟩
              · simp at h1
              · have hb := getBestStraightInMask_ok_some_bounds hgi
                by_cases h14 : bt = 14
                · exfalso
                  rw [h14] at hgi
                  have hall := getBestStraightInMask_some14 hgi
                  have hroyalmask := royal_of_allHasRank hall
                  have hrl := royalLoop_eq_false
                    (show royalLoop (suitMask (hole_cards ++ board_cards))
                      [0, 1, 2, 3] = (false, s) from hroyal) i hi
                  exact hrl hroyalmask
                · omega

theorem straight_flush_rank_bounds_witness :
    holdem_eval sfHole sfBoard =
      Except.ok (HoldemHandType.STRAIGHT_FLUSH, Tiebreak.rank 12) ∧
    (5 ≤ 12 ∧ 12 ≤ 13) :=
  ⟨rfl, straight_flush_rank_bounds sfHole sfBoard 12 rfl⟩
